import Mathlib

/-!
# A shallow embedding of the python-hosts library (hosts.py)

Definitions translate `src/python_hosts/hosts.py` into Lean: the `HostsEntry`
record, and the `Hosts` collection operations `exists`, `remove_all_matching`,
`add`, `write` (its counts and line format) and `import_file`, together with
the line parser `str_to_hostentry`.  The validators of the `utils` module
(`is_ipv4`, `is_ipv6`, `valid_hostnames`, `is_readable`) are not part of the
source tree and are modelled from the specification, as marked on each.

The `names` attribute of an entry is `Option (List String)`: comment and
blank entries carry Python `None` there, and the operations that evaluate
`name in entry.names` or `len(entry.names)` on such an entry raise a
`TypeError`.  Fallible operations therefore return `Option`: `none` is a
raised exception propagating to the caller, `some` a normal return.
-/

set_option maxRecDepth 4000

namespace PyHosts

/-- Python `str.isspace` relevant characters, i.e. the separators used by
`str.split()` / `str.strip()`: space, tab, newline, carriage return,
vertical tab and form feed. -/
def pyIsSpace (c : Char) : Bool :=
  c == ' ' || c == '\t' || c == '\n' || c == '\r' ||
    c == Char.ofNat 11 || c == Char.ofNat 12

/-- Split a character list at every occurrence of `sep` (Python
`str.split(sep)` for a one-character separator): empty chunks are kept. -/
def splitOnChar (sep : Char) : List Char → List (List Char)
  | [] => [[]]
  | c :: rest =>
    if c == sep then [] :: splitOnChar sep rest
    else
      match splitOnChar sep rest with
      | [] => [[c]]
      | t :: ts => (c :: t) :: ts

/-- Helper for `splitWS`: `acc` holds the reversed characters of the token
currently being scanned. -/
def splitWSAux : List Char → List Char → List (List Char)
  | [], acc => if acc.isEmpty then [] else [acc.reverse]
  | c :: rest, acc =>
    if pyIsSpace c then
      if acc.isEmpty then splitWSAux rest []
      else acc.reverse :: splitWSAux rest []
    else splitWSAux rest (c :: acc)

/-- Python `str.split()` with no argument on a character list: split on runs
of whitespace, discarding empty tokens. -/
def splitWS (cs : List Char) : List (List Char) :=
  splitWSAux cs []

/-- Python `str.split()` with no argument, on `String`. -/
def pysplit (s : String) : List String :=
  (splitWS s.data).map (fun cs => String.mk cs)

/-- Decide whether `ns` is an initial segment of `hay` (used to decide the
Python substring test `needle in hay`). -/
def leadsList : List Char → List Char → Bool
  | [], _ => true
  | _ :: _, [] => false
  | n :: ns, h :: hs => n == h && leadsList ns hs

/-- Decide whether `needle` occurs contiguously inside `hay`:
Python `needle in hay` on strings. -/
def occursIn (needle : List Char) : List Char → Bool
  | [] => leadsList needle []
  | h :: rest => leadsList needle (h :: rest) || occursIn needle rest

/-- Python `needle in hay` for strings (substring containment). -/
def strContains (hay needle : String) : Bool :=
  occursIn needle.data hay.data

/-- Decimal value of a digit sequence, as Python `int(...)` on an
all-digit string. -/
def natOfDigits (cs : List Char) : Nat :=
  cs.foldl (fun acc c => acc * 10 + (c.toNat - '0'.toNat)) 0

/-- Modelled from the spec: the `is_ipv4` validator lives in the `utils`
module, which is not under src.  Spec §4.1: a V4 address is
"4 dot-separated octets 0-255". -/
def is_ipv4 (s : String) : Bool :=
  let parts := splitOnChar '.' s.data
  parts.length == 4 && parts.all (fun p =>
    !p.isEmpty && p.all Char.isDigit && decide (natOfDigits p ≤ 255))

/-- A hexadecimal digit. -/
def isHexDigit (c : Char) : Bool :=
  c.isDigit || ('a' ≤ c && c ≤ 'f') || ('A' ≤ c && c ≤ 'F')

/-- A group of 1 to 4 hexadecimal digits. -/
def isHexGroup (p : List Char) : Bool :=
  !p.isEmpty && decide (p.length ≤ 4) && p.all isHexDigit

/-- Modelled from the spec: the `is_ipv6` validator lives in the `utils`
module, which is not under src.  Spec §4.1: "the full colon-hex-group syntax
including `::` compression and embedded-V4 suffix".  Chunks arise from
splitting on the colon; a chunk is a 1-4 hex digit group, empty chunks arise
only from the `::` compression (or leading/trailing colons of it), and the
final chunk may instead be an embedded dotted-quad V4 address.  The syntax
draws only on hex digits, the colon and the dot, stated as an explicit
alphabet clause. -/
def is_ipv6 (s : String) : Bool :=
  s.data.all (fun c => isHexDigit c || c == ':' || c == '.') &&
  let parts := splitOnChar ':' s.data
  if decide (parts.length < 3) then false
  else
    let lastPart := parts.getLastD []
    let hasV4 := lastPart.contains '.'
    let groups := if hasV4 then parts.dropLast else parts
    let maxGroups := if hasV4 then 6 else 8
    let emptyCount := (groups.filter (fun p => p.isEmpty)).length
    groups.all (fun p => p.isEmpty || isHexGroup p) &&
    (if hasV4 then is_ipv4 (String.mk lastPart) else true) &&
    (if emptyCount == 0 then groups.length == maxGroups
     else decide (emptyCount ≤ 3) && decide (groups.length ≤ maxGroups + 1))

/-- Modelled from the spec: the hostname validator lives in the `utils`
module, which is not under src.  Spec §4.1: "each label matches `[A-Za-z0-9-]`
at minimum one character, total host name ≤ 255 characters, no empty
labels". -/
def valid_hostname (s : String) : Bool :=
  !s.data.isEmpty && decide (s.data.length ≤ 255) &&
    (splitOnChar '.' s.data).all (fun l =>
      !l.isEmpty && l.all (fun c => c.isAlphanum || c == '-'))

/-- Modelled from the spec: `valid_hostnames` of the `utils` module (not under
src) accepts a list of candidate names; an entry is only built when the name
list is non-empty and every name is valid (spec §4.1 and §8: a line with an
address but zero valid names yields no entry). -/
def valid_hostnames (ns : List String) : Bool :=
  !ns.isEmpty && ns.all valid_hostname

/-- `HostsEntry` (hosts.py lines 20-61): a single record class whose nullable
fields are gated by the `entry_type` tag (`ipv4 | ipv6 | comment | blank`).
`names` is `none` exactly when the Python attribute is `None`, as it is on
every comment and blank entry; address entries carry a (non-empty) list. -/
structure HostsEntry where
  entry_type : String
  address : Option String
  comment : Option String
  names : Option (List String)
deriving Repr, DecidableEq

/-- Result of `HostsEntry.str_to_hostentry` (hosts.py lines 82-102): an
entry, Python `None` (valid address, invalid hostnames), Python `False`
(unrecognised first token), or the `IndexError` raised when the split line
has no tokens at all (`line_parts[0]` on an empty list). -/
inductive ParseResult where
  | entry (e : HostsEntry)
  | noEntry
  | falseResult
  | indexError
deriving Repr, DecidableEq

/-- `HostsEntry.str_to_hostentry` (hosts.py lines 82-102):
`entry.strip().split()`, then classify on the first token. -/
def str_to_hostentry (entry : String) : ParseResult :=
  match pysplit entry with
  | [] => ParseResult.indexError
  | p0 :: rest =>
    if is_ipv4 p0 then
      if valid_hostnames rest then
        ParseResult.entry ⟨"ipv4", some p0, none, some rest⟩
      else ParseResult.noEntry
    else if is_ipv6 p0 then
      if valid_hostnames rest then
        ParseResult.entry ⟨"ipv6", some p0, none, some rest⟩
      else ParseResult.noEntry
    else ParseResult.falseResult

/-- Python `' '.join(names)` (hosts.py line 165). -/
def joinSpace : List String → String
  | [] => ""
  | [n] => n
  | n :: ns => n ++ " " ++ joinSpace ns

/-- The write-back line format for an address entry (hosts.py lines 161-174):
`"{0}\t{1}\n".format(line.address, ' '.join(line.names))`.  The write loop
reaches this format only for entries tagged `ipv4`/`ipv6`, whose constructor
guarantees a name list, so the default `[]` for a missing list is never
exercised by `write`. -/
def hostsLine (e : HostsEntry) : String :=
  (e.address.getD "") ++ "\t" ++ joinSpace (e.names.getD []) ++ "\n"

/-- Python truthiness of an optional string: `None` and `""` are falsy. -/
def truthyS : Option String → Bool
  | none => false
  | some s => s != ""

/-- Python truthiness of an optional list: `None` and `[]` are falsy. -/
def truthyL : Option (List String) → Bool
  | none => false
  | some l => !l.isEmpty

/-- `Hosts.exists` (hosts.py lines 191-205): scan the entries in order,
returning true at the first address equality or name membership hit.  When a
names argument was supplied (truthy) and the scan reaches an entry whose
`names` attribute is `None` — every comment or blank entry — the membership
test `name in entry.names` at line 203 raises `TypeError`, modelled as
`none`. -/
def existsEntry : List HostsEntry → Option String → Option (List String) →
    Option Bool
  | [], _, _ => some false
  | entry :: rest, address, names =>
    if truthyS address && address == entry.address then some true
    else if truthyL names then
      match entry.names with
      | none => none
      | some ens =>
        if (names.getD []).any (fun n => ens.contains n) then some true
        else existsEntry rest address names
    else existsEntry rest address names

/-- The match predicate of `Hosts.remove_all_matching`
(hosts.py lines 215-221), following its `if address and name / elif address /
elif name` chain.  The conjunction `x.address == address and name in x.names`
short-circuits, so only an entry whose address already matches evaluates the
membership; in the name-only branch the membership is evaluated on every
entry, and `name in x.names` raises `TypeError` (`none`) when the entry's
`names` attribute is `None`. -/
def removeMatches (address name : Option String) (x : HostsEntry) :
    Option Bool :=
  if truthyS address && truthyS name then
    if x.address == address then
      match x.names with
      | none => none
      | some ns => some (ns.contains (name.getD ""))
    else some false
  else if truthyS address then
    some (x.address == address)
  else if truthyS name then
    match x.names with
    | none => none
    | some ns => some (ns.contains (name.getD ""))
  else some false

/-- A Python list comprehension `[x for x in l if p x]` whose predicate can
raise: entries are tested left to right and the first raise aborts the whole
comprehension. -/
def filterE {α : Type} (p : α → Option Bool) : List α → Option (List α)
  | [] => some []
  | x :: xs =>
    match p x with
    | none => none
    | some b =>
      match filterE p xs with
      | none => none
      | some ys => some (if b then x :: ys else ys)

/-- `Hosts.remove_all_matching` (hosts.py lines 207-223): build the list of
matching entries (raising before any mutation if the predicate raises), then
remove each of them (Python `list.remove`, i.e. first occurrence) from the
entry list. -/
def remove_all_matching (entries : List HostsEntry)
    (address name : Option String) : Option (List HostsEntry) :=
  match filterE (removeMatches address name) entries with
  | none => none
  | some to_remove =>
    some (to_remove.foldl (fun acc x => acc.erase x) entries)

/-- Helper for `dedupe_list`: `seen` is the set of already-emitted values. -/
def dedupeAux (seen : List String) : List String → List String
  | [] => []
  | x :: xs =>
    if seen.contains x then dedupeAux seen xs
    else x :: dedupeAux (x :: seen) xs

/-- `Hosts.dedupe_list` (hosts.py lines 290-299): drop duplicates, keeping
first occurrences in order. -/
def dedupe_list (seq : List String) : List String :=
  dedupeAux [] seq

/-- `existing_addresses` of `Hosts.add` (hosts.py line 313):
`[x.address for x in self.entries if x.address]`. -/
def existingAddresses (entries : List HostsEntry) : List String :=
  entries.filterMap (fun x =>
    match x.address with
    | some a => if a == "" then none else some a
    | none => none)

/-- The name-flattening loop of `Hosts.add` (hosts.py lines 314-320): all
names of every entry with a truthy name list, in order.  The truthiness
guard `if item.names` skips both `None` and `[]`, so no exception arises
here. -/
def existingNamesRaw : List HostsEntry → List String
  | [] => []
  | x :: xs => (x.names.getD []) ++ existingNamesRaw xs

/-- `existing_names` of `Hosts.add` (hosts.py lines 314-321): the flattened
name list, deduplicated. -/
def existingNames (entries : List HostsEntry) : List String :=
  dedupe_list (existingNamesRaw entries)

/-- The mutable state threaded through the candidate loop of `Hosts.add`:
the collection's entries (mutated by `remove_all_matching` calls), the
`import_entries` accumulator, and the duplicate/replaced counters. -/
structure AddState where
  entries : List HostsEntry
  import_entries : List HostsEntry
  duplicate_count : Nat
  replaced_count : Nat
deriving Repr, DecidableEq

/-- The name scan of the block-address multi-name branch
(hosts.py lines 326-336): the first candidate name already present among
`existing_names`, if any. -/
def findDupName (names existing_names : List String) : Option String :=
  names.find? (fun n => existing_names.contains n)

/-- The non-block new-address branch of `Hosts.add`
(hosts.py lines 352-366): loop over the candidate's names; a name that is a
substring of some existing name counts a duplicate (or, with force, removes
matching entries — a call that raises `TypeError` when the collection holds
an entry with `names = None` — bumps the replaced counter and appends the
candidate) and the scan continues with the next name; the first name with no
overlap appends the candidate and stops the scan (the for/else construct). -/
def addElseNames (force : Bool) (existing_names : List String)
    (entry : HostsEntry) : List String → AddState → Option AddState
  | [], st => some st
  | n :: rest, st =>
    if existing_names.any (fun sub => strContains sub n) then
      if force then
        match remove_all_matching st.entries none (some n) with
        | none => none
        | some es =>
          addElseNames force existing_names entry rest
            { st with
              entries := es,
              replaced_count := st.replaced_count + 1,
              import_entries := st.import_entries ++ [entry] }
      else
        addElseNames force existing_names entry rest
          { st with duplicate_count := st.duplicate_count + 1 }
    else
      some { st with import_entries := st.import_entries ++ [entry] }

/-- One iteration of the candidate loop of `Hosts.add`
(hosts.py lines 322-366).  The returned flag is true when the iteration
executes the `break` of line 338, which leaves the whole candidate loop.
`none` models a raised exception: `len(entry.names)` on `None`
(`TypeError`), `entry.names[0]` on `[]` (`IndexError`), iterating `None`
names in the else branch (`TypeError`), or a raising removal. -/
def addOne (force : Bool) (existing_addresses existing_names : List String)
    (entry : HostsEntry) (st : AddState) : Option (AddState × Bool) :=
  if entry.address == some "0.0.0.0" || entry.address == some "127.0.0.1" then
    match entry.names with
    | none => none
    | some ns =>
      if decide (ns.length > 1) then
        match findDupName ns existing_names with
        | some n =>
          if force then
            match remove_all_matching st.entries none (some n) with
            | none => none
            | some es =>
              some ({ st with
                      entries := es,
                      import_entries := st.import_entries ++ [entry] }, true)
          else
            some ({ st with duplicate_count := st.duplicate_count + 1 }, true)
        | none =>
          some ({ st with import_entries := st.import_entries ++ [entry] },
            false)
      else
        match ns with
        | [] => none
        | n0 :: _ =>
          if existing_names.contains n0 then
            some ({ st with duplicate_count := st.duplicate_count + 1 }, false)
          else
            some ({ st with import_entries := st.import_entries ++ [entry] },
              false)
  else if existing_addresses.contains (entry.address.getD "") then
    if force then
      match remove_all_matching st.entries entry.address none with
      | none => none
      | some es =>
        some ({ st with
                entries := es,
                replaced_count := st.replaced_count + 1,
                import_entries := st.import_entries ++ [entry] }, false)
    else
      some ({ st with duplicate_count := st.duplicate_count + 1 }, false)
  else
    match entry.names with
    | none => none
    | some ns =>
      match addElseNames force existing_names entry ns st with
      | none => none
      | some st' => some (st', false)

/-- The candidate loop of `Hosts.add` (hosts.py lines 322-366): iterates
`addOne`; a true break flag abandons the remaining candidates, and a raised
exception propagates. -/
def addLoop (force : Bool) (existing_addresses existing_names : List String) :
    List HostsEntry → AddState → Option AddState
  | [], st => some st
  | e :: rest, st =>
    match addOne force existing_addresses existing_names e st with
    | none => none
    | some (st', true) => some st'
    | some (st', false) =>
      addLoop force existing_addresses existing_names rest st'

/-- The dictionary returned by `Hosts.add` (hosts.py lines 375-379), together
with the resulting entry list of the collection. -/
structure AddResult where
  entries : List HostsEntry
  ipv4_count : Nat
  ipv6_count : Nat
  invalid_count : Nat
  duplicate_count : Nat
  replaced_count : Nat
deriving Repr, DecidableEq

/-- `Hosts.add` (hosts.py lines 301-379): snapshot the existing addresses and
names, run the candidate loop, then append the collected `import_entries` of
address type to the entry list while counting them by kind; `none` is an
exception raised inside the loop, propagating to the caller. -/
def add (entries cands : List HostsEntry) (force : Bool) : Option AddResult :=
  let ea := existingAddresses entries
  let en := existingNames entries
  match addLoop force ea en cands ⟨entries, [], 0, 0⟩ with
  | none => none
  | some st =>
    let accepted := st.import_entries.filter
      (fun e => e.entry_type == "ipv4" || e.entry_type == "ipv6")
    some
      { entries := st.entries ++ accepted,
        ipv4_count :=
          (st.import_entries.filter (fun e => e.entry_type == "ipv4")).length,
        ipv6_count :=
          (st.import_entries.filter (fun e => e.entry_type == "ipv6")).length,
        invalid_count := 0,
        duplicate_count := st.duplicate_count,
        replaced_count := st.replaced_count }

/-- Follows the claim wording of C3, for refinement comparison with `add`:
the decision basis for each candidate is "the set of names and addresses
present in the collection before the call began (minus within-call
removals)".  Accepted candidates are still only appended after the loop, so
this basis is exactly the existing-address and existing-name sets recomputed
from the current (removal-updated) entry list before each candidate. -/
def addSpecLoop (force : Bool) : List HostsEntry → AddState → Option AddState
  | [], st => some st
  | e :: rest, st =>
    match addOne force (existingAddresses st.entries)
        (existingNames st.entries) e st with
    | none => none
    | some (st', true) => some st'
    | some (st', false) => addSpecLoop force rest st'

/-- Follows the claim wording of C3 (see `addSpecLoop`); the surrounding
snapshot/append structure is as in `add`. -/
def add_spec_C3 (entries cands : List HostsEntry) (force : Bool) :
    Option AddResult :=
  match addSpecLoop force cands ⟨entries, [], 0, 0⟩ with
  | none => none
  | some st =>
    let accepted := st.import_entries.filter
      (fun e => e.entry_type == "ipv4" || e.entry_type == "ipv6")
    some
      { entries := st.entries ++ accepted,
        ipv4_count :=
          (st.import_entries.filter (fun e => e.entry_type == "ipv4")).length,
        ipv6_count :=
          (st.import_entries.filter (fun e => e.entry_type == "ipv6")).length,
        invalid_count := 0,
        duplicate_count := st.duplicate_count,
        replaced_count := st.replaced_count }

/-- Python `str.lstrip()` on a character list. -/
def lstripChars (cs : List Char) : List Char :=
  cs.dropWhile pyIsSpace

/-- Python `str.rstrip()` on a character list. -/
def rstripChars (cs : List Char) : List Char :=
  (cs.reverse.dropWhile pyIsSpace).reverse

/-- Python `str.strip()` on a character list. -/
def stripChars (cs : List Char) : List Char :=
  rstripChars (lstripChars cs)

/-- The line loop of `Hosts.import_file` (hosts.py lines 266-278): returns
the parsed import entries, the skipped count, the invalid count, and whether
an `IndexError` escaped from `str_to_hostentry` (aborting the loop). -/
def processImportLines : List String → List HostsEntry × Nat × Nat × Bool
  | [] => ([], 0, 0, false)
  | line :: rest =>
    let stripped := stripChars line.data
    if stripped.isEmpty || stripped.headD ' ' == '#' then
      let (es, sk, inv, r) := processImportLines rest
      (es, sk + 1, inv, r)
    else
      let kept := String.mk (rstripChars (line.data.takeWhile (fun c => c != '#')))
      match str_to_hostentry kept with
      | ParseResult.entry e =>
        let (es, sk, inv, r) := processImportLines rest
        (e :: es, sk, inv, r)
      | ParseResult.indexError => ([], 0, 0, true)
      | _ =>
        let (es, sk, inv, r) := processImportLines rest
        (es, sk, inv + 1, r)

/-- The dictionary returned by `Hosts.write` (hosts.py lines 175-179). -/
structure WriteResult where
  total_written : Nat
  comments_written : Nat
  blanks_written : Nat
  ipv4_entries_written : Nat
  ipv6_entries_written : Nat
deriving Repr, DecidableEq

/-- The counts computed by `Hosts.write` (hosts.py lines 138-179); note the
`enumerate` quirk that reports `total_written = 1` for an empty entry
list. -/
def writeCounts (entries : List HostsEntry) : WriteResult :=
  { total_written := if entries.isEmpty then 1 else entries.length,
    comments_written := (entries.filter (fun e => e.entry_type == "comment")).length,
    blanks_written := (entries.filter (fun e => e.entry_type == "blank")).length,
    ipv4_entries_written := (entries.filter (fun e => e.entry_type == "ipv4")).length,
    ipv6_entries_written := (entries.filter (fun e => e.entry_type == "ipv6")).length }

/-- A filesystem, modelled as the table of readable paths with their line
contents. -/
structure FS where
  files : List (String × List String)
deriving Repr, DecidableEq

/-- Modelled from the spec: `is_readable` lives in the `utils` module, which
is not under src; spec §6 describes it as the filesystem predicate
`is_readable(path) -> bool`.  A path is readable when the modelled filesystem
has it. -/
def is_readable (fs : FS) (path : Option String) : Bool :=
  match path with
  | none => false
  | some p => (fs.files.map Prod.fst).contains p

/-- The lines of a readable file of the modelled filesystem. -/
def readLines (fs : FS) (path : Option String) : List String :=
  match path with
  | none => []
  | some p => ((fs.files.find? (fun f => f.fst == p)).map Prod.snd).getD []

/-- The dictionary returned by `Hosts.import_file` (hosts.py lines 281-288),
together with the resulting entry list of the collection. -/
structure ImportFileResult where
  result : String
  message : Option String
  skipped : Nat
  invalid_count : Nat
  add_result : Option AddResult
  write_result : Option WriteResult
  entries : List HostsEntry
deriving Repr, DecidableEq

/-- `Hosts.import_file` (hosts.py lines 255-288): when the source is
readable, parse its lines, `add` the parsed entries (no force), `write` the
collection back and report; otherwise return the failure dictionary with the
collection untouched and no write performed.  `none` is an exception
(an `IndexError` from parsing or a `TypeError` from `add`) propagating to
the caller. -/
def import_file (fs : FS) (entries : List HostsEntry)
    (path : Option String) : Option ImportFileResult :=
  if is_readable fs path then
    match processImportLines (readLines fs path) with
    | (_, _, _, true) => none
    | (imports, skipped, invalid, false) =>
      match add entries imports false with
      | none => none
      | some ar =>
        some
          { result := "success", message := none, skipped := skipped,
            invalid_count := invalid, add_result := some ar,
            write_result := some (writeCounts ar.entries),
            entries := ar.entries }
  else
    some
      { result := "failed",
        message := some ("Cannot read: file " ++ path.getD "None" ++ "."),
        skipped := 0, invalid_count := 0, add_result := none,
        write_result := none, entries := entries }

/-! ## General helper lemmas -/

theorem contains_eq_false_of_not_mem {α} [BEq α] [LawfulBEq α] {l : List α}
    {a : α} (h : a ∉ l) : l.contains a = false := by
  cases hc : l.contains a
  · rfl
  · exact absurd (List.elem_iff.mp hc) h

theorem contains_eq_true_of_mem {α} [BEq α] [LawfulBEq α] {l : List α}
    {a : α} (h : a ∈ l) : l.contains a = true :=
  List.elem_iff.mpr h

theorem foldl_erase_cons {α} [DecidableEq α] (a : α) :
    ∀ (ys l : List α), (∀ y ∈ ys, y ≠ a) →
      ys.foldl (fun acc x => acc.erase x) (a :: l) =
        a :: ys.foldl (fun acc x => acc.erase x) l
  | [], _, _ => rfl
  | y :: ys, l, h => by
    have hy : ¬(a == y) = true := by
      simp only [beq_iff_eq]
      exact fun hh => (h y (List.mem_cons_self y ys)) hh.symm
    simp only [List.foldl_cons]
    rw [List.erase_cons_tail hy]
    exact foldl_erase_cons a ys (l.erase y)
      (fun z hz => h z (List.mem_cons_of_mem y hz))

theorem foldl_erase_filter {α} [DecidableEq α] :
    ∀ (l : List α) (p : α → Bool),
      (l.filter p).foldl (fun acc x => acc.erase x) l =
        l.filter (fun x => !(p x))
  | [], _ => rfl
  | a :: l, p => by
    by_cases hp : p a = true
    · rw [List.filter_cons_of_pos hp]
      simp only [List.foldl_cons, List.erase_cons_head]
      rw [foldl_erase_filter l p, List.filter_cons_of_neg (by simp [hp])]
    · rw [List.filter_cons_of_neg hp]
      rw [foldl_erase_cons a (l.filter p) l
        (fun y hy hya => hp (hya ▸ (List.mem_filter.mp hy).2))]
      rw [foldl_erase_filter l p,
        List.filter_cons_of_pos (by simp [Bool.eq_false_iff.mpr hp])]

theorem foldl_erase_sublist {α} [DecidableEq α] :
    ∀ (ys l : List α),
      List.Sublist (ys.foldl (fun acc x => acc.erase x) l) l
  | [], _ => List.Sublist.refl _
  | y :: ys, l =>
    (foldl_erase_sublist ys (l.erase y)).trans (List.erase_sublist y l)

theorem mem_dedupeAux (x : String) :
    ∀ (l seen : List String), x ∈ dedupeAux seen l ↔ (x ∈ l ∧ x ∉ seen)
  | [], seen => by simp [dedupeAux]
  | a :: l, seen => by
    simp only [dedupeAux]
    by_cases h : seen.contains a = true
    · have ha : a ∈ seen := List.elem_iff.mp h
      rw [if_pos h, mem_dedupeAux x l seen]
      simp only [List.mem_cons]
      constructor
      · rintro ⟨h1, h2⟩
        exact ⟨Or.inr h1, h2⟩
      · rintro ⟨h1 | h1, h2⟩
        · exact absurd (h1 ▸ ha) h2
        · exact ⟨h1, h2⟩
    · rw [if_neg h]
      simp only [List.mem_cons, mem_dedupeAux x l (a :: seen)]
      constructor
      · rintro (rfl | ⟨h1, h2⟩)
        · exact ⟨Or.inl rfl, fun hm => h (contains_eq_true_of_mem hm)⟩
        · exact ⟨Or.inr h1, fun hm => h2 (Or.inr hm)⟩
      · rintro ⟨h1, h2⟩
        by_cases hxa : x = a
        · exact Or.inl hxa
        · rcases h1 with rfl | h1
          · exact absurd rfl hxa
          · refine Or.inr ⟨h1, fun hm => ?_⟩
            rcases hm with rfl | hm
            · exact hxa rfl
            · exact h2 hm

theorem mem_dedupe_list (x : String) (l : List String) :
    x ∈ dedupe_list l ↔ x ∈ l := by
  rw [dedupe_list, mem_dedupeAux]
  simp

theorem mem_existingAddresses {a : String} {entries : List HostsEntry} :
    a ∈ existingAddresses entries ↔
      (a ≠ "" ∧ ∃ x ∈ entries, x.address = some a) := by
  simp only [existingAddresses, List.mem_filterMap]
  constructor
  · rintro ⟨x, hx, hfx⟩
    rcases hh : x.address with _ | b
    · rw [hh] at hfx
      exact absurd hfx (by simp)
    · rw [hh] at hfx
      dsimp only at hfx
      by_cases hb : (b == "") = true
      · rw [if_pos hb] at hfx
        exact absurd hfx (by simp)
      · rw [if_neg hb] at hfx
        cases hfx
        exact ⟨by simpa using hb, x, hx, hh⟩
  · rintro ⟨ha, x, hx, hh⟩
    refine ⟨x, hx, ?_⟩
    rw [hh]
    dsimp only
    rw [if_neg (by simpa using ha)]

theorem mem_getD_names {n : String} {o : Option (List String)} :
    n ∈ o.getD [] ↔ ∃ ens, o = some ens ∧ n ∈ ens := by
  cases o <;> simp

theorem mem_existingNamesRaw (n : String) :
    ∀ (entries : List HostsEntry),
      n ∈ existingNamesRaw entries ↔ ∃ x ∈ entries, n ∈ x.names.getD []
  | [] => by simp [existingNamesRaw]
  | x :: xs => by
    simp only [existingNamesRaw, List.mem_append, mem_existingNamesRaw n xs,
      List.mem_cons]
    constructor
    · rintro (h | ⟨y, hy, hn⟩)
      · exact ⟨x, Or.inl rfl, h⟩
      · exact ⟨y, Or.inr hy, hn⟩
    · rintro ⟨y, rfl | hy, hn⟩
      · exact Or.inl hn
      · exact Or.inr ⟨y, hy, hn⟩

theorem mem_existingNames {n : String} {entries : List HostsEntry} :
    n ∈ existingNames entries ↔ ∃ x ∈ entries, n ∈ x.names.getD [] := by
  rw [existingNames, mem_dedupe_list, mem_existingNamesRaw]

/-- The pure value `removeMatches` computes whenever it does not raise:
the predicate with the missing name list read as `[]`. -/
def removeMatchesB (address name : Option String) (x : HostsEntry) : Bool :=
  if truthyS address && truthyS name then
    if x.address == address then (x.names.getD []).contains (name.getD "")
    else false
  else if truthyS address then
    x.address == address
  else if truthyS name then
    (x.names.getD []).contains (name.getD "")
  else false

theorem removeMatches_eq_some (address name : Option String) (x : HostsEntry)
    (h : x.names ≠ none ∨ truthyS name = false) :
    removeMatches address name x = some (removeMatchesB address name x) := by
  rw [removeMatches, removeMatchesB]
  by_cases h1 : (truthyS address && truthyS name) = true
  · rw [if_pos h1, if_pos h1]
    by_cases h2 : (x.address == address) = true
    · rw [if_pos h2, if_pos h2]
      rcases hn : x.names with _ | ns
      · rcases h with h | h
        · exact absurd hn h
        · simp [h] at h1
      · rfl
    · rw [if_neg h2, if_neg h2]
  · rw [if_neg h1, if_neg h1]
    by_cases h3 : truthyS address = true
    · rw [if_pos h3, if_pos h3]
    · rw [if_neg h3, if_neg h3]
      by_cases h4 : truthyS name = true
      · rw [if_pos h4, if_pos h4]
        rcases hn : x.names with _ | ns
        · rcases h with h | h
          · exact absurd hn h
          · rw [h] at h4
            cases h4
        · rfl
      · rw [if_neg h4, if_neg h4]

theorem filterE_eq_filter {α : Type} (p : α → Option Bool) (q : α → Bool) :
    ∀ (l : List α), (∀ x ∈ l, p x = some (q x)) →
      filterE p l = some (l.filter q)
  | [], _ => rfl
  | x :: xs, h => by
    simp only [filterE]
    rw [h x (List.mem_cons_self x xs)]
    rw [filterE_eq_filter p q xs (fun y hy => h y (List.mem_cons_of_mem x hy))]
    by_cases hq : q x = true
    · simp [hq, List.filter_cons_of_pos hq]
    · simp [hq, List.filter_cons_of_neg hq]

theorem remove_all_matching_eq_filter (entries : List HostsEntry)
    (address name : Option String)
    (h : (∀ x ∈ entries, x.names ≠ none) ∨ truthyS name = false) :
    remove_all_matching entries address name =
      some (entries.filter (fun x => !(removeMatchesB address name x))) := by
  have hall : ∀ x ∈ entries, removeMatches address name x
      = some (removeMatchesB address name x) := by
    intro x hx
    apply removeMatches_eq_some
    rcases h with h | h
    · exact Or.inl (h x hx)
    · exact Or.inr h
  rw [remove_all_matching, filterE_eq_filter _ _ entries hall]
  show some ((entries.filter (removeMatchesB address name)).foldl
      (fun acc x => acc.erase x) entries) = _
  rw [foldl_erase_filter]

theorem remove_all_matching_sublist {entries es : List HostsEntry}
    {address name : Option String}
    (h : remove_all_matching entries address name = some es) :
    List.Sublist es entries := by
  rw [remove_all_matching] at h
  rcases hf : filterE (removeMatches address name) entries with _ | tr
  · rw [hf] at h
    cases h
  · rw [hf] at h
    obtain rfl := Option.some.inj h
    exact foldl_erase_sublist tr entries

theorem findDupName_eq_none {names en : List String}
    (h : ∀ n ∈ names, n ∉ en) : findDupName names en = none := by
  rw [findDupName, List.find?_eq_none]
  intro n hn
  simp [contains_eq_false_of_not_mem (h n hn), h n hn]

/-! ## Character and splitting lemmas for the parser -/

theorem pyIsSpace_cases {c : Char} (h : pyIsSpace c = true) :
    c = ' ' ∨ c = '\t' ∨ c = '\n' ∨ c = '\r' ∨
      c = Char.ofNat 11 ∨ c = Char.ofNat 12 := by
  have hx := h
  simp only [pyIsSpace, Bool.or_eq_true, beq_iff_eq] at hx
  tauto

theorem space_char_facts {c : Char} (h : pyIsSpace c = true) :
    c.isDigit = false ∧ c.isAlphanum = false ∧ isHexDigit c = false ∧
      c ≠ '.' ∧ c ≠ ':' ∧ c ≠ '-' := by
  rcases pyIsSpace_cases h with rfl | rfl | rfl | rfl | rfl | rfl <;>
    exact ⟨by decide, by decide, by decide, by decide, by decide, by decide⟩

theorem not_space_of_digit {c : Char} (h : c.isDigit = true) :
    pyIsSpace c = false := by
  cases hs : pyIsSpace c
  · rfl
  · rw [(space_char_facts hs).1] at h
    cases h

theorem not_space_of_alphanum {c : Char}
    (h : c.isAlphanum = true ∨ c = '-' ∨ c = '.') : pyIsSpace c = false := by
  cases hs : pyIsSpace c
  · rfl
  · obtain ⟨_, h2, _, h4, _, h6⟩ := space_char_facts hs
    rcases h with h | h | h
    · rw [h2] at h
      cases h
    · exact absurd h h6
    · exact absurd h h4

theorem not_space_of_hex {c : Char}
    (h : isHexDigit c = true ∨ c = ':' ∨ c = '.') : pyIsSpace c = false := by
  cases hs : pyIsSpace c
  · rfl
  · obtain ⟨_, _, h3, h4, h5, _⟩ := space_char_facts hs
    rcases h with h | h | h
    · rw [h3] at h
      cases h
    · exact absurd h h5
    · exact absurd h h4

theorem splitOnChar_ne_nil (sep : Char) :
    ∀ (cs : List Char), splitOnChar sep cs ≠ [] := by
  intro cs
  induction cs with
  | nil => simp [splitOnChar]
  | cons c rest ih =>
    simp only [splitOnChar]
    split
    · simp
    · rcases h : splitOnChar sep rest with _ | ⟨t, ts⟩
      · simp
      · simp

theorem mem_splitOnChar (sep : Char) {c : Char} :
    ∀ {cs : List Char}, c ∈ cs →
      c = sep ∨ ∃ p ∈ splitOnChar sep cs, c ∈ p := by
  intro cs
  induction cs with
  | nil => intro h; cases h
  | cons a rest ih =>
    intro hmem
    simp only [splitOnChar]
    by_cases ha : (a == sep) = true
    · rw [if_pos ha]
      rcases List.mem_cons.mp hmem with rfl | hmem
      · exact Or.inl (by simpa using ha)
      · rcases ih hmem with h | ⟨p, hp, hcp⟩
        · exact Or.inl h
        · exact Or.inr ⟨p, List.mem_cons_of_mem _ hp, hcp⟩
    · rw [if_neg ha]
      rcases h : splitOnChar sep rest with _ | ⟨t, ts⟩
      · exact absurd h (splitOnChar_ne_nil sep rest)
      · rcases List.mem_cons.mp hmem with rfl | hmem
        · exact Or.inr ⟨c :: t, List.mem_cons_self _ _, List.mem_cons_self _ _⟩
        · rcases ih hmem with hc | ⟨p, hp, hcp⟩
          · exact Or.inl hc
          · rw [h] at hp
            rcases List.mem_cons.mp hp with rfl | hp
            · exact Or.inr ⟨a :: p, List.mem_cons_self _ _,
                List.mem_cons_of_mem _ hcp⟩
            · exact Or.inr ⟨p, List.mem_cons_of_mem _ hp, hcp⟩

theorem splitOnChar_of_no_sep (sep : Char) :
    ∀ (cs : List Char), (∀ c ∈ cs, (c == sep) = false) →
      splitOnChar sep cs = [cs]
  | [] , _ => rfl
  | c :: rest, h => by
    simp only [splitOnChar]
    rw [if_neg (by simp [h c (List.mem_cons_self c rest)])]
    rw [splitOnChar_of_no_sep sep rest
      (fun x hx => h x (List.mem_cons_of_mem c hx))]

theorem dropLast_append_getLastD {α} (d : α) :
    ∀ (l : List α), l ≠ [] → l.dropLast ++ [l.getLastD d] = l
  | [], h => absurd rfl h
  | [a], _ => rfl
  | a :: b :: l, _ => by
    show a :: ((b :: l).dropLast ++ [(b :: l).getLastD a]) = a :: b :: l
    rw [dropLast_append_getLastD a (b :: l) (by simp)]

/-! ## Character classification of valid addresses and hostnames -/

theorem ipv4_chars {s : String} (h : is_ipv4 s = true) :
    ∀ c ∈ s.data, c.isDigit = true ∨ c = '.' := by
  intro c hc
  simp only [is_ipv4, Bool.and_eq_true, List.all_eq_true] at h
  rcases mem_splitOnChar '.' hc with rfl | ⟨p, hp, hcp⟩
  · exact Or.inr rfl
  · obtain ⟨-, hall⟩ := h
    obtain ⟨⟨-, hdig⟩, -⟩ := hall p hp
    exact Or.inl (hdig c hcp)

theorem ipv4_ne_nil {s : String} (h : is_ipv4 s = true) : s.data ≠ [] := by
  intro hnil
  simp [is_ipv4, hnil, splitOnChar] at h

theorem ipv4_no_space {s : String} (h : is_ipv4 s = true) :
    ∀ c ∈ s.data, pyIsSpace c = false := by
  intro c hc
  rcases ipv4_chars h c hc with hd | rfl
  · exact not_space_of_digit hd
  · decide

theorem ipv6_chars {s : String} (h : is_ipv6 s = true) :
    ∀ c ∈ s.data, isHexDigit c = true ∨ c = ':' ∨ c = '.' := by
  intro c hc
  simp only [is_ipv6, Bool.and_eq_true] at h
  have hx := List.all_eq_true.mp h.1 c hc
  simp only [Bool.or_eq_true, beq_iff_eq] at hx
  tauto

theorem ipv6_ne_nil {s : String} (h : is_ipv6 s = true) : s.data ≠ [] := by
  intro hnil
  simp [is_ipv6, hnil, splitOnChar] at h

theorem ipv6_no_space {s : String} (h : is_ipv6 s = true) :
    ∀ c ∈ s.data, pyIsSpace c = false := by
  intro c hc
  rcases ipv6_chars h c hc with hx | rfl | rfl
  · exact not_space_of_hex (Or.inl hx)
  · decide
  · decide

theorem ipv6_has_colon {s : String} (h : is_ipv6 s = true) : ':' ∈ s.data := by
  by_contra hno
  have hsplit : splitOnChar ':' s.data = [s.data] :=
    splitOnChar_of_no_sep ':' s.data (fun c hc => by
      cases hcc : (c == ':')
      · rfl
      · exact absurd (beq_iff_eq.mp hcc ▸ hc) hno)
  simp [is_ipv6, hsplit] at h

theorem ipv6_not_ipv4 {s : String} (h : is_ipv6 s = true) :
    is_ipv4 s = false := by
  cases h4 : is_ipv4 s
  · rfl
  · rcases ipv4_chars h4 ':' (ipv6_has_colon h) with hd | hdot
    · exact absurd hd (by decide)
    · exact absurd hdot (by decide)

theorem hostname_chars {s : String} (h : valid_hostname s = true) :
    ∀ c ∈ s.data, c.isAlphanum = true ∨ c = '-' ∨ c = '.' := by
  intro c hc
  simp only [valid_hostname, Bool.and_eq_true, List.all_eq_true,
    Bool.or_eq_true, beq_iff_eq] at h
  obtain ⟨-, hC⟩ := h
  rcases mem_splitOnChar '.' hc with rfl | ⟨p, hp, hcp⟩
  · exact Or.inr (Or.inr rfl)
  · obtain ⟨-, hall⟩ := hC p hp
    rcases hall c hcp with h1 | h2
    · exact Or.inl h1
    · exact Or.inr (Or.inl h2)

theorem hostname_ne_nil {s : String} (h : valid_hostname s = true) :
    s.data ≠ [] := by
  simp only [valid_hostname, Bool.and_eq_true] at h
  simpa using h.1.1

theorem hostname_no_space {s : String} (h : valid_hostname s = true) :
    ∀ c ∈ s.data, pyIsSpace c = false := by
  intro c hc
  exact not_space_of_alphanum (hostname_chars h c hc)

/-! ## Characterising `splitWS` on serialized lines -/

theorem splitWSAux_all_space :
    ∀ (cs acc : List Char), (∀ c ∈ cs, pyIsSpace c = true) →
      splitWSAux cs acc = if acc.isEmpty then [] else [acc.reverse]
  | [], acc, _ => rfl
  | c :: rest, acc, h => by
    have hc := h c (List.mem_cons_self c rest)
    have hr := splitWSAux_all_space rest []
      (fun x hx => h x (List.mem_cons_of_mem c hx))
    simp only [splitWSAux, hc, if_true]
    by_cases ha : acc.isEmpty
    · simp [ha, hr]
    · simp [ha, hr]

theorem splitWSAux_token {s : Char} (hs : pyIsSpace s = true) :
    ∀ (tok rest acc : List Char),
      (∀ c ∈ tok, pyIsSpace c = false) → (tok ≠ [] ∨ acc ≠ []) →
      splitWSAux (tok ++ s :: rest) acc =
        (acc.reverse ++ tok) :: splitWSAux rest []
  | [], rest, acc, _, hne => by
    have hacc : acc ≠ [] := by
      rcases hne with h | h
      · exact absurd rfl h
      · exact h
    have : acc.isEmpty = false := by
      cases acc
      · exact absurd rfl hacc
      · rfl
    simp [splitWSAux, hs, this]
  | c :: tok, rest, acc, hws, _ => by
    have hc : pyIsSpace c = false := hws c (List.mem_cons_self _ _)
    have hrec := splitWSAux_token hs tok rest (c :: acc)
      (fun x hx => hws x (List.mem_cons_of_mem c hx)) (Or.inr (by simp))
    rw [List.cons_append]
    rw [show splitWSAux (c :: (tok ++ s :: rest)) acc
          = splitWSAux (tok ++ s :: rest) (c :: acc) from by
        simp [splitWSAux, hc]]
    rw [hrec]
    simp

theorem splitWSAux_last :
    ∀ (tok acc : List Char),
      (∀ c ∈ tok, pyIsSpace c = false) → (tok ≠ [] ∨ acc ≠ []) →
      splitWSAux tok acc = [acc.reverse ++ tok]
  | [], acc, _, hne => by
    have hacc : acc ≠ [] := by
      rcases hne with h | h
      · exact absurd rfl h
      · exact h
    have : acc.isEmpty = false := by
      cases acc
      · exact absurd rfl hacc
      · rfl
    simp [splitWSAux, this]
  | c :: tok, acc, hws, _ => by
    have hc : pyIsSpace c = false := hws c (List.mem_cons_self _ _)
    have hrec := splitWSAux_last tok (c :: acc)
      (fun x hx => hws x (List.mem_cons_of_mem c hx)) (Or.inr (by simp))
    rw [show splitWSAux (c :: tok) acc
          = splitWSAux tok (c :: acc) from by
        simp [splitWSAux, hc]]
    rw [hrec]
    simp

/-- The characters of `' '.join`, on token character lists. -/
def joinChars : List (List Char) → List Char
  | [] => []
  | [t] => t
  | t :: ts => t ++ ' ' :: joinChars ts

theorem splitWS_joined :
    ∀ (toks : List (List Char)), toks ≠ [] →
      (∀ t ∈ toks, t ≠ [] ∧ ∀ c ∈ t, pyIsSpace c = false) →
      splitWSAux (joinChars toks ++ ['\n']) [] = toks
  | [], hne, _ => absurd rfl hne
  | [t], _, h => by
    obtain ⟨ht, hws⟩ := h t (List.mem_cons_self t [])
    rw [show joinChars [t] = t from rfl]
    rw [splitWSAux_token (by decide) t [] [] hws (Or.inl ht)]
    simp [splitWSAux]
  | t :: t2 :: ts, _, h => by
    obtain ⟨ht, hws⟩ := h t (List.mem_cons_self t _)
    rw [show joinChars (t :: t2 :: ts) = t ++ ' ' :: joinChars (t2 :: ts) from rfl]
    rw [List.append_assoc, List.cons_append]
    rw [splitWSAux_token (by decide) t (joinChars (t2 :: ts) ++ ['\n']) []
      hws (Or.inl ht)]
    rw [splitWS_joined (t2 :: ts) (by simp)
      (fun x hx => h x (List.mem_cons_of_mem t hx))]
    simp

theorem mk_data (s : String) : String.mk s.data = s := rfl

theorem joinSpace_data :
    ∀ (N : List String), (joinSpace N).data = joinChars (N.map String.data)
  | [] => rfl
  | [n] => rfl
  | n :: m :: ns => by
    show (n ++ " " ++ joinSpace (m :: ns)).data
      = n.data ++ ' ' :: joinChars ((m :: ns).map String.data)
    rw [String.data_append, String.data_append, joinSpace_data (m :: ns)]
    simp

theorem pysplit_line (A : String) (N : List String)
    (hA : A.data ≠ [] ∧ ∀ c ∈ A.data, pyIsSpace c = false)
    (hN : N ≠ [] ∧ ∀ nm ∈ N, nm.data ≠ [] ∧ ∀ c ∈ nm.data, pyIsSpace c = false) :
    pysplit (A ++ "\t" ++ joinSpace N ++ "\n") = A :: N := by
  have hdata : (A ++ "\t" ++ joinSpace N ++ "\n").data
      = A.data ++ '\t' :: (joinChars (N.map String.data) ++ ['\n']) := by
    rw [String.data_append, String.data_append, String.data_append,
      joinSpace_data N]
    simp
  rw [pysplit, hdata, splitWS]
  rw [splitWSAux_token (by decide) A.data _ [] hA.2 (Or.inl hA.1)]
  rw [splitWS_joined (N.map String.data) (by simpa using hN.1)
    (fun t ht => by
      obtain ⟨nm, hnm, rfl⟩ := List.mem_map.mp ht
      exact hN.2 nm hnm)]
  simp only [List.nil_append, List.map_cons, mk_data, List.map_map]
  rw [show ((fun cs => String.mk cs) ∘ String.data) = id from by
    funext x
    rfl]
  rw [List.map_id]
  rw [show ({ data := List.reverse [] ++ A.data } : String) = A from by
    simp [mk_data]]

/-! ## Evaluation lemmas for the branches of `addOne` -/

/-- Entries whose names attribute is a list, so the name-membership tests of
a remove-by-name call cannot raise. -/
def AllNamed (l : List HostsEntry) : Prop :=
  ∀ x ∈ l, x.names ≠ none

theorem AllNamed_of_sublist {l l' : List HostsEntry}
    (hs : List.Sublist l' l) (h : AllNamed l) : AllNamed l' :=
  fun x hx => h x (hs.subset hx)

theorem addOne_block_eval (force : Bool) (ea en : List String)
    (e : HostsEntry) (st : AddState) (n0 : String) (tail : List String)
    (hb : (e.address == some "0.0.0.0" ||
      e.address == some "127.0.0.1") = true)
    (hns : e.names = some (n0 :: tail)) :
    addOne force ea en e st =
      (if decide ((n0 :: tail).length > 1) then
        match findDupName (n0 :: tail) en with
        | some n =>
          if force then
            match remove_all_matching st.entries none (some n) with
            | none => none
            | some es =>
              some ({ st with
                      entries := es,
                      import_entries := st.import_entries ++ [e] }, true)
          else
            some ({ st with duplicate_count := st.duplicate_count + 1 }, true)
        | none =>
          some ({ st with import_entries := st.import_entries ++ [e] }, false)
      else
        if en.contains n0 then
          some ({ st with duplicate_count := st.duplicate_count + 1 }, false)
        else
          some ({ st with import_entries := st.import_entries ++ [e] },
            false)) := by
  simp only [addOne]
  rw [if_pos hb, hns]

theorem addOne_existing_noforce (ea en : List String) (e : HostsEntry)
    (st : AddState) (a : String) (haddr : e.address = some a)
    (hb0 : a ≠ "0.0.0.0") (hb1 : a ≠ "127.0.0.1")
    (hmem : ea.contains a = true) :
    addOne false ea en e st =
      some ({ st with duplicate_count := st.duplicate_count + 1 }, false) := by
  simp only [addOne]
  rw [if_neg (by simp [haddr, hb0, hb1]), if_pos (by rw [haddr]; exact hmem)]
  rfl

theorem addOne_existing_force (ea en : List String) (e : HostsEntry)
    (st : AddState) (a : String) (haddr : e.address = some a)
    (hb0 : a ≠ "0.0.0.0") (hb1 : a ≠ "127.0.0.1")
    (hmem : ea.contains a = true) (hane : a ≠ "") :
    addOne true ea en e st =
      some ({ st with
              entries := st.entries.filter (fun x => !(x.address == some a)),
              replaced_count := st.replaced_count + 1,
              import_entries := st.import_entries ++ [e] }, false) := by
  simp only [addOne]
  rw [if_neg (by simp [haddr, hb0, hb1]), if_pos (by rw [haddr]; exact hmem)]
  rw [haddr, remove_all_matching_eq_filter st.entries (some a) none (Or.inr rfl)]
  rw [show (fun x => !(removeMatchesB (some a) none x))
        = (fun x : HostsEntry => !(x.address == some a)) from by
    funext x
    simp [removeMatchesB, truthyS, hane]]
  rfl

theorem addOne_existing_force_general (force : Bool) (ea en : List String)
    (e : HostsEntry) (st : AddState) (a : String) (haddr : e.address = some a)
    (hb0 : a ≠ "0.0.0.0") (hb1 : a ≠ "127.0.0.1")
    (hmem : ea.contains a = true) :
    addOne force ea en e st =
      (if force then
        some ({ st with
                entries :=
                  st.entries.filter (fun x => !(removeMatchesB (some a) none x)),
                replaced_count := st.replaced_count + 1,
                import_entries := st.import_entries ++ [e] }, false)
       else
        some ({ st with duplicate_count := st.duplicate_count + 1 },
          false)) := by
  simp only [addOne]
  rw [if_neg (by simp [haddr, hb0, hb1]), if_pos (by rw [haddr]; exact hmem)]
  rw [haddr, remove_all_matching_eq_filter st.entries (some a) none (Or.inr rfl)]

theorem addOne_else_eval (force : Bool) (ea en : List String)
    (e : HostsEntry) (st : AddState) (a : String) (ns : List String)
    (haddr : e.address = some a)
    (hb0 : a ≠ "0.0.0.0") (hb1 : a ≠ "127.0.0.1")
    (hnew : ea.contains a = false) (hns : e.names = some ns) :
    addOne force ea en e st =
      (match addElseNames force en e ns st with
       | none => none
       | some st' => some (st', false)) := by
  have hcond2 : ¬(ea.contains (e.address.getD "") = true) := by
    rw [haddr]
    show ¬(ea.contains a = true)
    rw [hnew]
    simp
  simp only [addOne]
  rw [if_neg (by simp [haddr, hb0, hb1]), if_neg hcond2, hns]

theorem addOne_block_fresh (ea en : List String) (e : HostsEntry)
    (st : AddState) (ns : List String)
    (hba : e.address = some "0.0.0.0" ∨ e.address = some "127.0.0.1")
    (hns : e.names = some ns) (hne : ns ≠ [])
    (hfresh : ∀ n ∈ ns, n ∉ en) :
    addOne false ea en e st =
      some ({ st with import_entries := st.import_entries ++ [e] }, false) := by
  have hb : (e.address == some "0.0.0.0" ||
      e.address == some "127.0.0.1") = true := by
    rcases hba with h | h <;> simp [h]
  obtain ⟨n0, tail, rfl⟩ := List.exists_cons_of_ne_nil hne
  rw [addOne_block_eval false ea en e st n0 tail hb hns]
  rcases tail with _ | ⟨t1, tail'⟩
  · have hlen : ¬((decide ((n0 :: ([] : List String)).length > 1)) = true) := by
      simp
    rw [if_neg hlen]
    rw [if_neg (by
      rw [contains_eq_false_of_not_mem (hfresh n0 (List.mem_cons_self _ _))]
      simp)]
  · have hlen : (decide ((n0 :: t1 :: tail').length > 1)) = true := by simp
    rw [if_pos hlen, findDupName_eq_none hfresh]

theorem addElseNames_false_eq (en : List String) (e : HostsEntry) :
    ∀ (ns : List String) (st : AddState),
      addElseNames false en e ns st =
        some { st with
          duplicate_count := st.duplicate_count +
            (ns.takeWhile (fun n => en.any (fun sub => strContains sub n))).length,
          import_entries := st.import_entries ++
            (if ns.any (fun n => !(en.any (fun sub => strContains sub n)))
             then [e] else []) }
  | [], st => by
    cases st
    simp [addElseNames]
  | n :: rest, st => by
    by_cases h : (en.any (fun sub => strContains sub n)) = true
    · rw [show addElseNames false en e (n :: rest) st
          = addElseNames false en e rest
              { st with duplicate_count := st.duplicate_count + 1 } from by
        simp [addElseNames, h]]
      rw [addElseNames_false_eq en e rest]
      cases st
      simp [List.takeWhile_cons, List.any_cons, h]
      omega
    · rw [show addElseNames false en e (n :: rest) st
          = some { st with import_entries := st.import_entries ++ [e] } from by
        simp [addElseNames, h]]
      cases st
      simp [List.takeWhile_cons, List.any_cons, h]

/-! ## Paired runs of the candidate loop -/

/-- Two loop states that agree on everything the per-candidate decisions and
the returned counters can see (the decisions read only the snapshot lists,
never the entry list). -/
def Agree (s t : AddState) : Prop :=
  s.import_entries = t.import_entries ∧
    s.duplicate_count = t.duplicate_count ∧
    s.replaced_count = t.replaced_count

theorem addElseNames_paired (force : Bool) (en : List String)
    (e : HostsEntry) :
    ∀ (ns : List String) (s t : AddState),
      Agree s t → AllNamed s.entries → AllNamed t.entries →
      ∃ s' t', addElseNames force en e ns s = some s' ∧
        addElseNames force en e ns t = some t' ∧
        Agree s' t' ∧
        List.Sublist s'.entries s.entries ∧
        List.Sublist t'.entries t.entries ∧
        ∃ k, s'.import_entries = s.import_entries ++ k ∧ ∀ x ∈ k, x = e
  | [], s, t, hag, _, _ =>
    ⟨s, t, rfl, rfl, hag, List.Sublist.refl _, List.Sublist.refl _, [],
      by simp, by simp⟩
  | n :: rest, s, t, hag, hs, ht => by
    obtain ⟨h1, h2, h3⟩ := hag
    by_cases hov : (en.any (fun sub => strContains sub n)) = true
    · by_cases hf : force = true
      · subst hf
        have hrs := remove_all_matching_eq_filter s.entries none (some n)
          (Or.inl hs)
        have hrt := remove_all_matching_eq_filter t.entries none (some n)
          (Or.inl ht)
        obtain ⟨s', t', hps, hpt, hag', hsub1, hsub2, k, hk, hke⟩ :=
          addElseNames_paired true en e rest
            { s with
              entries := s.entries.filter
                (fun x => !(removeMatchesB none (some n) x)),
              replaced_count := s.replaced_count + 1,
              import_entries := s.import_entries ++ [e] }
            { t with
              entries := t.entries.filter
                (fun x => !(removeMatchesB none (some n) x)),
              replaced_count := t.replaced_count + 1,
              import_entries := t.import_entries ++ [e] }
            ⟨by simp [h1], by simp [h2], by simp [h3]⟩
            (fun x hx => hs x (List.mem_filter.mp hx).1)
            (fun x hx => ht x (List.mem_filter.mp hx).1)
        refine ⟨s', t', ?_, ?_, hag', ?_, ?_, e :: k, ?_, ?_⟩
        · rw [show addElseNames true en e (n :: rest) s
              = addElseNames true en e rest
                  { s with
                    entries := s.entries.filter
                      (fun x => !(removeMatchesB none (some n) x)),
                    replaced_count := s.replaced_count + 1,
                    import_entries := s.import_entries ++ [e] } from by
            simp only [addElseNames]
            rw [if_pos hov, if_pos trivial, hrs]]
          exact hps
        · rw [show addElseNames true en e (n :: rest) t
              = addElseNames true en e rest
                  { t with
                    entries := t.entries.filter
                      (fun x => !(removeMatchesB none (some n) x)),
                    replaced_count := t.replaced_count + 1,
                    import_entries := t.import_entries ++ [e] } from by
            simp only [addElseNames]
            rw [if_pos hov, if_pos trivial, hrt]]
          exact hpt
        · exact hsub1.trans (List.filter_sublist _)
        · exact hsub2.trans (List.filter_sublist _)
        · rw [hk]
          simp
        · intro x hx
          rcases List.mem_cons.mp hx with rfl | hx
          · rfl
          · exact hke x hx
      · have hf' : force = false := by
          cases force
          · rfl
          · exact absurd rfl hf
        subst hf'
        obtain ⟨s', t', hps, hpt, hag', hsub1, hsub2, k, hk, hke⟩ :=
          addElseNames_paired false en e rest
            { s with duplicate_count := s.duplicate_count + 1 }
            { t with duplicate_count := t.duplicate_count + 1 }
            ⟨h1, by simp [h2], h3⟩ hs ht
        refine ⟨s', t', ?_, ?_, hag', hsub1, hsub2, k, hk, hke⟩
        · rw [show addElseNames false en e (n :: rest) s
              = addElseNames false en e rest
                  { s with duplicate_count := s.duplicate_count + 1 } from by
            simp only [addElseNames]
            rw [if_pos hov, if_neg (by simp)]]
          exact hps
        · rw [show addElseNames false en e (n :: rest) t
              = addElseNames false en e rest
                  { t with duplicate_count := t.duplicate_count + 1 } from by
            simp only [addElseNames]
            rw [if_pos hov, if_neg (by simp)]]
          exact hpt
    · refine ⟨{ s with import_entries := s.import_entries ++ [e] },
        { t with import_entries := t.import_entries ++ [e] }, ?_, ?_,
        ⟨by simp [h1], h2, h3⟩, List.Sublist.refl _, List.Sublist.refl _,
        [e], rfl, by simp⟩
      · simp only [addElseNames]
        rw [if_neg hov]
      · simp only [addElseNames]
        rw [if_neg hov]

theorem addOne_paired (force : Bool) (ea en : List String) (e : HostsEntry)
    (ns : List String) (hns : e.names = some ns) (hne : ns ≠ [])
    (s t : AddState) (hag : Agree s t)
    (hs : AllNamed s.entries) (ht : AllNamed t.entries) :
    ∃ s' t' brk, addOne force ea en e s = some (s', brk) ∧
      addOne force ea en e t = some (t', brk) ∧
      Agree s' t' ∧
      List.Sublist s'.entries s.entries ∧
      List.Sublist t'.entries t.entries ∧
      ∃ k, s'.import_entries = s.import_entries ++ k ∧ ∀ x ∈ k, x = e := by
  obtain ⟨h1, h2, h3⟩ := hag
  obtain ⟨n0, tail, rfl⟩ := List.exists_cons_of_ne_nil hne
  by_cases hb : (e.address == some "0.0.0.0" ||
      e.address == some "127.0.0.1") = true
  · by_cases hlen : (decide ((n0 :: tail).length > 1)) = true
    · rcases hfind : findDupName (n0 :: tail) en with _ | n
      · have hstep : ∀ (u : AddState), addOne force ea en e u =
            some ({ u with import_entries := u.import_entries ++ [e] },
              false) := by
          intro u
          rw [addOne_block_eval force ea en e u n0 tail hb hns, if_pos hlen,
            hfind]
        exact ⟨_, _, false, hstep s, hstep t, ⟨by simp [h1], h2, h3⟩,
          List.Sublist.refl _, List.Sublist.refl _, [e], rfl, by simp⟩
      · by_cases hf : force = true
        · subst hf
          have hstep : ∀ (u : AddState), AllNamed u.entries →
              addOne true ea en e u =
                some ({ u with
                  entries := u.entries.filter
                    (fun x => !(removeMatchesB none (some n) x)),
                  import_entries := u.import_entries ++ [e] }, true) := by
            intro u hu
            rw [addOne_block_eval true ea en e u n0 tail hb hns, if_pos hlen,
              hfind]
            show (match remove_all_matching u.entries none (some n) with
              | none => none
              | some es =>
                some ({ u with
                        entries := es,
                        import_entries := u.import_entries ++ [e] }, true)) = _
            rw [remove_all_matching_eq_filter u.entries none (some n)
              (Or.inl hu)]
          exact ⟨_, _, true, hstep s hs, hstep t ht, ⟨by simp [h1], h2, h3⟩,
            List.filter_sublist _, List.filter_sublist _, [e], rfl, by simp⟩
        · have hf' : force = false := by
            cases force
            · rfl
            · exact absurd rfl hf
          subst hf'
          have hstep : ∀ (u : AddState), addOne false ea en e u =
              some ({ u with duplicate_count := u.duplicate_count + 1 },
                true) := by
            intro u
            rw [addOne_block_eval false ea en e u n0 tail hb hns, if_pos hlen,
              hfind]
            rfl
          exact ⟨_, _, true, hstep s, hstep t, ⟨h1, by simp [h2], h3⟩,
            List.Sublist.refl _, List.Sublist.refl _, [], by simp, by simp⟩
    · by_cases hc : en.contains n0 = true
      · have hstep : ∀ (u : AddState), addOne force ea en e u =
            some ({ u with duplicate_count := u.duplicate_count + 1 },
              false) := by
          intro u
          rw [addOne_block_eval force ea en e u n0 tail hb hns, if_neg hlen,
            if_pos hc]
        exact ⟨_, _, false, hstep s, hstep t, ⟨h1, by simp [h2], h3⟩,
          List.Sublist.refl _, List.Sublist.refl _, [], by simp, by simp⟩
      · have hstep : ∀ (u : AddState), addOne force ea en e u =
            some ({ u with import_entries := u.import_entries ++ [e] },
              false) := by
          intro u
          rw [addOne_block_eval force ea en e u n0 tail hb hns, if_neg hlen,
            if_neg hc]
        exact ⟨_, _, false, hstep s, hstep t, ⟨by simp [h1], h2, h3⟩,
          List.Sublist.refl _, List.Sublist.refl _, [e], rfl, by simp⟩
  · by_cases hea : ea.contains (e.address.getD "") = true
    · by_cases hf : force = true
      · subst hf
        have hstep : ∀ (u : AddState), addOne true ea en e u =
            some ({ u with
              entries := u.entries.filter
                (fun x => !(removeMatchesB e.address none x)),
              replaced_count := u.replaced_count + 1,
              import_entries := u.import_entries ++ [e] }, false) := by
          intro u
          simp only [addOne]
          rw [if_neg hb, if_pos hea]
          show (match remove_all_matching u.entries e.address none with
            | none => none
            | some es =>
              some ({ u with
                      entries := es,
                      replaced_count := u.replaced_count + 1,
                      import_entries := u.import_entries ++ [e] },
                false)) = _
          rw [remove_all_matching_eq_filter u.entries e.address none
            (Or.inr rfl)]
        exact ⟨_, _, false, hstep s, hstep t,
          ⟨by simp [h1], h2, by simp [h3]⟩,
          List.filter_sublist _, List.filter_sublist _, [e], rfl, by simp⟩
      · have hf' : force = false := by
          cases force
          · rfl
          · exact absurd rfl hf
        subst hf'
        have hstep : ∀ (u : AddState), addOne false ea en e u =
            some ({ u with duplicate_count := u.duplicate_count + 1 },
              false) := by
          intro u
          simp only [addOne]
          rw [if_neg hb, if_pos hea]
          rfl
        exact ⟨_, _, false, hstep s, hstep t, ⟨h1, by simp [h2], h3⟩,
          List.Sublist.refl _, List.Sublist.refl _, [], by simp, by simp⟩
    · have hstep : ∀ (u : AddState), addOne force ea en e u =
          (match addElseNames force en e (n0 :: tail) u with
           | none => none
           | some st' => some (st', false)) := by
        intro u
        simp only [addOne]
        rw [if_neg hb, if_neg hea, hns]
      obtain ⟨s', t', hps, hpt, hag', hsub1, hsub2, k, hk, hke⟩ :=
        addElseNames_paired force en e (n0 :: tail) s t ⟨h1, h2, h3⟩ hs ht
      refine ⟨s', t', false, ?_, ?_, hag', hsub1, hsub2, k, hk, hke⟩
      · rw [hstep s, hps]
      · rw [hstep t, hpt]

theorem flatten_replicate_nil {A : Type} (n : Nat) :
    (List.replicate n ([] : List A)).flatten = [] := by
  induction n with
  | zero => rfl
  | succ m ih => simp [List.replicate_succ, ih]

/-- The candidate loop of `Hosts.add` over a list of well-formed (name-
bearing, nonempty-name) candidates, starting from two states that agree on
the counters and the imports but may hold different entry collections (both
all-named): both runs succeed, reach agreeing states, shrink their entry
lists only by removal, and extend the imports by per-candidate blocks in
candidate order (a block is empty when the candidate is refused, and the
`break` of hosts.py line 338 leaves all later blocks empty). -/
theorem addLoop_paired (force : Bool) (ea en : List String)
    (cands : List HostsEntry) :
    (∀ c ∈ cands, ∃ ns, c.names = some ns ∧ ns ≠ []) →
    ∀ (s t : AddState), Agree s t →
      AllNamed s.entries → AllNamed t.entries →
    ∃ s' t', addLoop force ea en cands s = some s' ∧
      addLoop force ea en cands t = some t' ∧
      Agree s' t' ∧
      List.Sublist s'.entries s.entries ∧
      List.Sublist t'.entries t.entries ∧
      ∃ blocks : List (List HostsEntry),
        blocks.length = cands.length ∧
        s'.import_entries = s.import_entries ++ blocks.flatten ∧
        ∀ p ∈ blocks.zip cands, ∀ x ∈ p.1, x = p.2 := by
  induction cands with
  | nil =>
    intro _ s t hag _ _
    exact ⟨s, t, rfl, rfl, hag, List.Sublist.refl _, List.Sublist.refl _,
      [], rfl, by simp, by simp⟩
  | cons e rest ih =>
    intro hc s t hag hs ht
    obtain ⟨ns, hns, hne⟩ := hc e (List.mem_cons_self e rest)
    obtain ⟨s1, t1, brk, hos, hot, hag1, hsub1s, hsub1t, k, hk, hke⟩ :=
      addOne_paired force ea en e ns hns hne s t hag hs ht
    cases brk with
    | true =>
      refine ⟨s1, t1, ?_, ?_, hag1, hsub1s, hsub1t,
        k :: List.replicate rest.length [], by simp, ?_, ?_⟩
      · show (match addOne force ea en e s with
          | none => none
          | some (st', true) => some st'
          | some (st', false) => addLoop force ea en rest st') = some s1
        rw [hos]
      · show (match addOne force ea en e t with
          | none => none
          | some (st', true) => some st'
          | some (st', false) => addLoop force ea en rest st') = some t1
        rw [hot]
      · rw [hk]
        simp [flatten_replicate_nil]
      · intro p hp x hx
        rw [List.zip_cons_cons] at hp
        rcases List.mem_cons.mp hp with h | h
        · subst h
          exact hke x hx
        · have hp1 := (List.of_mem_zip h).1
          rw [List.eq_of_mem_replicate hp1] at hx
          exact absurd hx (List.not_mem_nil x)
    | false =>
      obtain ⟨s', t', hls, hlt, hag', hsubs, hsubt, blocks, hlen, himp,
          hzip⟩ :=
        ih (fun c hcm => hc c (List.mem_cons_of_mem e hcm)) s1 t1 hag1
          (AllNamed_of_sublist hsub1s hs) (AllNamed_of_sublist hsub1t ht)
      refine ⟨s', t', ?_, ?_, hag', hsubs.trans hsub1s, hsubt.trans hsub1t,
        k :: blocks, by simp [hlen], ?_, ?_⟩
      · show (match addOne force ea en e s with
          | none => none
          | some (st', true) => some st'
          | some (st', false) => addLoop force ea en rest st') = some s'
        rw [hos]
        exact hls
      · show (match addOne force ea en e t with
          | none => none
          | some (st', true) => some st'
          | some (st', false) => addLoop force ea en rest st') = some t'
        rw [hot]
        exact hlt
      · rw [himp, hk]
        simp [List.flatten_cons, List.append_assoc]
      · intro p hp x hx
        rw [List.zip_cons_cons] at hp
        rcases List.mem_cons.mp hp with h | h
        · subst h
          exact hke x hx
        · exact hzip p h x hx

/-! ## Claim theorems -/

theorem addLoop_cons (force : Bool) (ea en : List String) (e : HostsEntry)
    (rest : List HostsEntry) (s s1 : AddState)
    (h : addOne force ea en e s = some (s1, false)) :
    addLoop force ea en (e :: rest) s = addLoop force ea en rest s1 := by
  show (match addOne force ea en e s with
    | none => none
    | some (st', true) => some st'
    | some (st', false) => addLoop force ea en rest st') =
    addLoop force ea en rest s1
  rw [h]

/-- C1: a candidate address entry whose non-block address is already present
verbatim among the existing addresses: without force, `add` counts one
duplicate and returns the entries unchanged; with force, it removes every
entry carrying that address, appends the candidate, and counts one
replacement. -/
theorem C1_nonblock_existing_address (entries : List HostsEntry)
    (e : HostsEntry) (a : String)
    (haddr : e.address = some a) (ha : a ≠ "")
    (hb0 : a ≠ "0.0.0.0") (hb1 : a ≠ "127.0.0.1")
    (htype : e.entry_type = "ipv4" ∨ e.entry_type = "ipv6")
    (hex : ∃ x ∈ entries, x.address = some a) :
    (∃ r, add entries [e] false = some r ∧
      r.entries = entries ∧ r.duplicate_count = 1 ∧ r.replaced_count = 0) ∧
    (∃ r, add entries [e] true = some r ∧
      r.entries = entries.filter (fun x => !(x.address == some a)) ++ [e] ∧
      r.replaced_count = 1 ∧ r.duplicate_count = 0) := by
  have hmem : (existingAddresses entries).contains a = true :=
    contains_eq_true_of_mem (mem_existingAddresses.mpr ⟨ha, hex⟩)
  have htyp : (e.entry_type == "ipv4" || e.entry_type == "ipv6") = true := by
    rcases htype with h | h <;> simp [h]
  constructor
  · have h1 := addOne_existing_noforce (existingAddresses entries)
      (existingNames entries) e ⟨entries, [], 0, 0⟩ a haddr hb0 hb1 hmem
    have hloop : addLoop false (existingAddresses entries)
        (existingNames entries) [e] ⟨entries, [], 0, 0⟩ =
        some ⟨entries, [], 1, 0⟩ := by
      rw [addLoop_cons false (existingAddresses entries)
        (existingNames entries) e [] ⟨entries, [], 0, 0⟩ _ h1]
      rfl
    have hadd : add entries [e] false = some ⟨entries, 0, 0, 0, 1, 0⟩ := by
      simp only [add]
      rw [hloop]
      simp
    exact ⟨_, hadd, rfl, rfl, rfl⟩
  · have h2 := addOne_existing_force (existingAddresses entries)
      (existingNames entries) e ⟨entries, [], 0, 0⟩ a haddr hb0 hb1 hmem ha
    have hloop : addLoop true (existingAddresses entries)
        (existingNames entries) [e] ⟨entries, [], 0, 0⟩ =
        some ⟨entries.filter (fun x => !(x.address == some a)), [e], 0, 1⟩ := by
      rw [addLoop_cons true (existingAddresses entries)
        (existingNames entries) e [] ⟨entries, [], 0, 0⟩ _ h2]
      rfl
    have hadd : add entries [e] true =
        some ⟨entries.filter (fun x => !(x.address == some a)) ++ [e],
          (List.filter (fun x => x.entry_type == "ipv4") [e]).length,
          (List.filter (fun x => x.entry_type == "ipv6") [e]).length,
          0, 0, 1⟩ := by
      simp only [add]
      rw [hloop]
      simp [htyp]
    exact ⟨_, hadd, rfl, rfl, rfl⟩

theorem C1_witness :
    (∃ r, add [⟨"ipv4", some "1.2.3.4", none, some ["x"]⟩]
        [⟨"ipv4", some "1.2.3.4", none, some ["y"]⟩] false = some r ∧
      r.entries = [⟨"ipv4", some "1.2.3.4", none, some ["x"]⟩] ∧
      r.duplicate_count = 1 ∧ r.replaced_count = 0) ∧
    (∃ r, add [⟨"ipv4", some "1.2.3.4", none, some ["x"]⟩]
        [⟨"ipv4", some "1.2.3.4", none, some ["y"]⟩] true = some r ∧
      r.entries = List.filter (fun x => !(x.address == some "1.2.3.4"))
          [⟨"ipv4", some "1.2.3.4", none, some ["x"]⟩] ++
        [⟨"ipv4", some "1.2.3.4", none, some ["y"]⟩] ∧
      r.replaced_count = 1 ∧ r.duplicate_count = 0) :=
  C1_nonblock_existing_address [⟨"ipv4", some "1.2.3.4", none, some ["x"]⟩]
    ⟨"ipv4", some "1.2.3.4", none, some ["y"]⟩ "1.2.3.4" rfl (by decide)
    (by decide) (by decide) (Or.inl rfl)
    ⟨⟨"ipv4", some "1.2.3.4", none, some ["x"]⟩,
      List.mem_singleton.mpr rfl, rfl⟩

/-- C2: the claim that every candidate in a batch is dispositioned
independently is a code bug: a block-address multi-name duplicate executes
the `break` of hosts.py line 338, leaving the whole candidate loop, so a
fully fresh later candidate is silently dropped — while the same later
candidate alone is accepted. -/
theorem C2_block_duplicate_skips_rest :
    add [⟨"ipv4", some "10.0.0.1", none, some ["foo"]⟩]
      [⟨"ipv4", some "127.0.0.1", none, some ["foo", "bar"]⟩,
       ⟨"ipv4", some "10.0.0.2", none, some ["fresh"]⟩] false =
      some { entries := [⟨"ipv4", some "10.0.0.1", none, some ["foo"]⟩],
             ipv4_count := 0, ipv6_count := 0, invalid_count := 0,
             duplicate_count := 1, replaced_count := 0 } ∧
    add [⟨"ipv4", some "10.0.0.1", none, some ["foo"]⟩]
      [⟨"ipv4", some "10.0.0.2", none, some ["fresh"]⟩] false =
      some { entries := [⟨"ipv4", some "10.0.0.1", none, some ["foo"]⟩,
                         ⟨"ipv4", some "10.0.0.2", none, some ["fresh"]⟩],
             ipv4_count := 1, ipv6_count := 0, invalid_count := 0,
             duplicate_count := 0, replaced_count := 0 } :=
  ⟨by decide, by decide⟩

/-- C3 counterexample: the claim's decision basis "pre-call names and
addresses minus within-call removals" is refuted.  With force, two
candidates sharing one existing address both hit the snapshot (which never
sees the first candidate's removal), so the code counts two replacements,
while `add_spec_C3` — the claim's words, recomputing the basis after each
removal — counts one. -/
theorem C3_counterexample :
    (add [⟨"ipv4", some "1.2.3.4", none, some ["old"]⟩]
      [⟨"ipv4", some "1.2.3.4", none, some ["a"]⟩,
       ⟨"ipv4", some "1.2.3.4", none, some ["b"]⟩] true).map
        (fun r => r.replaced_count) = some 2 ∧
    (add_spec_C3 [⟨"ipv4", some "1.2.3.4", none, some ["old"]⟩]
      [⟨"ipv4", some "1.2.3.4", none, some ["a"]⟩,
       ⟨"ipv4", some "1.2.3.4", none, some ["b"]⟩] true).map
        (fun r => r.replaced_count) = some 1 :=
  ⟨by decide, by decide⟩

/-- C3 (amended): over name-bearing collections and well-formed candidates,
every per-candidate decision of `add` reads only the pre-call snapshot of
existing addresses and names — reflecting neither within-call removals nor
within-call acceptances — so two collections with equal snapshots produce
equal duplicate/replaced/accepted counts; and the result list is a prefix
obtained from the pre-call entries by removals alone (a sublist), followed
by the accepted candidates appended only after the loop, grouped per
candidate in original candidate order. -/
theorem C3_amended_snapshot (e1 e2 cands : List HostsEntry) (force : Bool)
    (ha : existingAddresses e1 = existingAddresses e2)
    (hn : existingNames e1 = existingNames e2)
    (hw1 : ∀ x ∈ e1, x.names ≠ none) (hw2 : ∀ x ∈ e2, x.names ≠ none)
    (hc : ∀ c ∈ cands, ∃ ns, c.names = some ns ∧ ns ≠ []) :
    ∃ r1 r2, add e1 cands force = some r1 ∧ add e2 cands force = some r2 ∧
      r1.duplicate_count = r2.duplicate_count ∧
      r1.replaced_count = r2.replaced_count ∧
      r1.ipv4_count = r2.ipv4_count ∧ r1.ipv6_count = r2.ipv6_count ∧
      ∃ kept blocks, r1.entries = kept ++ List.flatten blocks ∧
        List.Sublist kept e1 ∧
        blocks.length = cands.length ∧
        ∀ p ∈ blocks.zip cands, ∀ x ∈ p.1, x = p.2 := by
  obtain ⟨s', t', hls, hlt, ⟨hi, hd, hr⟩, hsubs, hsubt, blocks, hlen, himp,
      hzip⟩ :=
    addLoop_paired force (existingAddresses e1) (existingNames e1) cands hc
      ⟨e1, [], 0, 0⟩ ⟨e2, [], 0, 0⟩ ⟨rfl, rfl, rfl⟩ hw1 hw2
  have himp' : s'.import_entries = List.flatten blocks := by
    simpa using himp
  have hadd1 : add e1 cands force = some
      { entries := s'.entries ++ s'.import_entries.filter
          (fun e => e.entry_type == "ipv4" || e.entry_type == "ipv6"),
        ipv4_count := (s'.import_entries.filter
          (fun e => e.entry_type == "ipv4")).length,
        ipv6_count := (s'.import_entries.filter
          (fun e => e.entry_type == "ipv6")).length,
        invalid_count := 0,
        duplicate_count := s'.duplicate_count,
        replaced_count := s'.replaced_count } := by
    simp only [add]
    rw [hls]
  have hadd2 : add e2 cands force = some
      { entries := t'.entries ++ t'.import_entries.filter
          (fun e => e.entry_type == "ipv4" || e.entry_type == "ipv6"),
        ipv4_count := (t'.import_entries.filter
          (fun e => e.entry_type == "ipv4")).length,
        ipv6_count := (t'.import_entries.filter
          (fun e => e.entry_type == "ipv6")).length,
        invalid_count := 0,
        duplicate_count := t'.duplicate_count,
        replaced_count := t'.replaced_count } := by
    simp only [add]
    rw [← ha, ← hn, hlt]
  refine ⟨_, _, hadd1, hadd2, hd, hr, by rw [hi], by rw [hi],
    s'.entries,
    blocks.map (List.filter
      (fun e => e.entry_type == "ipv4" || e.entry_type == "ipv6")),
    ?_, hsubs, by simp [hlen], ?_⟩
  · show s'.entries ++ s'.import_entries.filter
        (fun e => e.entry_type == "ipv4" || e.entry_type == "ipv6") = _
    rw [himp', List.filter_flatten]
  · intro p hp x hx
    rw [List.zip_map_left] at hp
    obtain ⟨q, hq, rfl⟩ := List.mem_map.mp hp
    exact hzip q hq x (List.mem_of_mem_filter hx)

theorem C3_amended_witness :
    ∃ r1 r2, add [⟨"ipv4", some "9.9.9.9", some "c1", some ["q"]⟩]
        [⟨"ipv4", some "1.2.3.4", none, some ["n"]⟩] false = some r1 ∧
      add [⟨"ipv4", some "9.9.9.9", none, some ["q"]⟩]
        [⟨"ipv4", some "1.2.3.4", none, some ["n"]⟩] false = some r2 ∧
      r1.duplicate_count = r2.duplicate_count ∧
      r1.replaced_count = r2.replaced_count ∧
      r1.ipv4_count = r2.ipv4_count ∧ r1.ipv6_count = r2.ipv6_count ∧
      ∃ kept blocks, r1.entries = kept ++ List.flatten blocks ∧
        List.Sublist kept [⟨"ipv4", some "9.9.9.9", some "c1", some ["q"]⟩] ∧
        blocks.length = [(⟨"ipv4", some "1.2.3.4", none,
          some ["n"]⟩ : HostsEntry)].length ∧
        ∀ p ∈ blocks.zip [(⟨"ipv4", some "1.2.3.4", none,
            some ["n"]⟩ : HostsEntry)], ∀ x ∈ p.1, x = p.2 :=
  C3_amended_snapshot [⟨"ipv4", some "9.9.9.9", some "c1", some ["q"]⟩]
    [⟨"ipv4", some "9.9.9.9", none, some ["q"]⟩]
    [⟨"ipv4", some "1.2.3.4", none, some ["n"]⟩] false (by decide) (by decide)
    (by decide) (by decide)
    (fun c hcm => by
      rw [List.mem_singleton] at hcm
      subst hcm
      exact ⟨["n"], rfl, by decide⟩)

/-- C4 counterexample: the claim "on overlap, exactly one duplicate and not
appended" is refuted twice by the per-name loop of hosts.py lines 352-366:
a candidate whose first name overlaps but whose second does not is counted
as a duplicate AND appended; a candidate whose every name overlaps is
counted as two duplicates. -/
theorem C4_counterexample :
    add [⟨"ipv4", some "9.9.9.9", none, some ["xabcx"]⟩]
      [⟨"ipv4", some "1.2.3.4", none, some ["abc", "zzz"]⟩] false =
      some { entries := [⟨"ipv4", some "9.9.9.9", none, some ["xabcx"]⟩,
                         ⟨"ipv4", some "1.2.3.4", none, some ["abc", "zzz"]⟩],
             ipv4_count := 1, ipv6_count := 0, invalid_count := 0,
             duplicate_count := 1, replaced_count := 0 } ∧
    add [⟨"ipv4", some "9.9.9.9", none, some ["xabcx", "xabdx"]⟩]
      [⟨"ipv4", some "1.2.3.4", none, some ["abc", "abd"]⟩] false =
      some { entries := [⟨"ipv4", some "9.9.9.9", none,
                          some ["xabcx", "xabdx"]⟩],
             ipv4_count := 0, ipv6_count := 0, invalid_count := 0,
             duplicate_count := 2, replaced_count := 0 } :=
  ⟨by decide, by decide⟩

/-- C4 (amended): for a candidate whose non-block address is new, without
force, the names are scanned in order; each leading name with a substring
overlap against some existing name counts one duplicate and the scan
continues; the first name with no overlap appends the candidate exactly once
and stops the scan.  The candidate is withheld iff every name overlaps. -/
theorem C4_amended_overlap_scan (entries : List HostsEntry) (e : HostsEntry)
    (a : String) (ns : List String)
    (haddr : e.address = some a)
    (hb0 : a ≠ "0.0.0.0") (hb1 : a ≠ "127.0.0.1")
    (hnew : (existingAddresses entries).contains a = false)
    (hns : e.names = some ns)
    (htype : e.entry_type = "ipv4" ∨ e.entry_type = "ipv6") :
    ∃ r, add entries [e] false = some r ∧
      r.entries = entries ++
        (if ns.any (fun n => !((existingNames entries).any
            (fun sub => strContains sub n))) then [e] else []) ∧
      r.duplicate_count =
        (ns.takeWhile (fun n => (existingNames entries).any
            (fun sub => strContains sub n))).length ∧
      r.replaced_count = 0 := by
  have htyp : (e.entry_type == "ipv4" || e.entry_type == "ipv6") = true := by
    rcases htype with h | h <;> simp [h]
  have h1 := addOne_else_eval false (existingAddresses entries)
    (existingNames entries) e ⟨entries, [], 0, 0⟩ a ns haddr hb0 hb1 hnew hns
  have h2 := addElseNames_false_eq (existingNames entries) e ns
    ⟨entries, [], 0, 0⟩
  have hone : addOne false (existingAddresses entries)
      (existingNames entries) e ⟨entries, [], 0, 0⟩ =
      some (⟨entries,
        if ns.any (fun n => !((existingNames entries).any
            (fun sub => strContains sub n))) then [e] else [],
        (ns.takeWhile (fun n => (existingNames entries).any
            (fun sub => strContains sub n))).length,
        0⟩, false) := by
    rw [h1, h2]
    simp
  have hloop : addLoop false (existingAddresses entries)
      (existingNames entries) [e] ⟨entries, [], 0, 0⟩ =
      some ⟨entries,
        if ns.any (fun n => !((existingNames entries).any
            (fun sub => strContains sub n))) then [e] else [],
        (ns.takeWhile (fun n => (existingNames entries).any
            (fun sub => strContains sub n))).length,
        0⟩ := by
    rw [addLoop_cons false (existingAddresses entries)
      (existingNames entries) e [] ⟨entries, [], 0, 0⟩ _ hone]
    rfl
  refine ⟨⟨entries ++ List.filter
        (fun x => x.entry_type == "ipv4" || x.entry_type == "ipv6")
        (if ns.any (fun n => !((existingNames entries).any
            (fun sub => strContains sub n))) then [e] else []),
      (List.filter (fun x => x.entry_type == "ipv4")
        (if ns.any (fun n => !((existingNames entries).any
            (fun sub => strContains sub n))) then [e] else [])).length,
      (List.filter (fun x => x.entry_type == "ipv6")
        (if ns.any (fun n => !((existingNames entries).any
            (fun sub => strContains sub n))) then [e] else [])).length,
      0,
      (ns.takeWhile (fun n => (existingNames entries).any
          (fun sub => strContains sub n))).length,
      0⟩, ?_, ?_, rfl, rfl⟩
  · simp only [add]
    rw [hloop]
  · show entries ++ List.filter
        (fun x => x.entry_type == "ipv4" || x.entry_type == "ipv6")
        (if ns.any (fun n => !((existingNames entries).any
            (fun sub => strContains sub n))) then [e] else []) = _
    by_cases hany : ns.any (fun n => !((existingNames entries).any
        (fun sub => strContains sub n))) = true
    · simp [hany, htyp]
    · simp [hany]

theorem C4_amended_witness :
    ∃ r, add [⟨"ipv4", some "9.9.9.9", none, some ["xabcx"]⟩]
        [⟨"ipv4", some "1.2.3.4", none, some ["abc", "zzz"]⟩] false =
        some r ∧
      r.entries = [⟨"ipv4", some "9.9.9.9", none, some ["xabcx"]⟩] ++
        (if (["abc", "zzz"]).any (fun n =>
            !((existingNames [⟨"ipv4", some "9.9.9.9", none,
              some ["xabcx"]⟩]).any (fun sub => strContains sub n)))
         then [⟨"ipv4", some "1.2.3.4", none, some ["abc", "zzz"]⟩]
         else []) ∧
      r.duplicate_count = ((["abc", "zzz"]).takeWhile (fun n =>
          (existingNames [⟨"ipv4", some "9.9.9.9", none,
            some ["xabcx"]⟩]).any (fun sub => strContains sub n))).length ∧
      r.replaced_count = 0 :=
  C4_amended_overlap_scan [⟨"ipv4", some "9.9.9.9", none, some ["xabcx"]⟩]
    ⟨"ipv4", some "1.2.3.4", none, some ["abc", "zzz"]⟩ "1.2.3.4"
    ["abc", "zzz"] rfl (by decide) (by decide) (by decide) rfl (Or.inl rfl)

/-- C5: two block-address (127.0.0.1) candidates, none of whose names occur
among the collection's existing names, are both appended by one `add` call
and neither is counted as a duplicate of the other (the snapshot never sees
the first acceptance). -/
theorem C5_two_block_candidates (entries : List HostsEntry)
    (c1 c2 : HostsEntry) (ns1 ns2 : List String)
    (ha1 : c1.address = some "127.0.0.1") (ha2 : c2.address = some "127.0.0.1")
    (hn1 : c1.names = some ns1) (hn2 : c2.names = some ns2)
    (hne1 : ns1 ≠ []) (hne2 : ns2 ≠ [])
    (ht1 : c1.entry_type = "ipv4" ∨ c1.entry_type = "ipv6")
    (ht2 : c2.entry_type = "ipv4" ∨ c2.entry_type = "ipv6")
    (hfresh1 : ∀ n ∈ ns1, n ∉ existingNames entries)
    (hfresh2 : ∀ n ∈ ns2, n ∉ existingNames entries) :
    ∃ r, add entries [c1, c2] false = some r ∧
      r.entries = entries ++ [c1, c2] ∧ r.duplicate_count = 0 := by
  have htyp1 : (c1.entry_type == "ipv4" || c1.entry_type == "ipv6") = true := by
    rcases ht1 with h | h <;> simp [h]
  have htyp2 : (c2.entry_type == "ipv4" || c2.entry_type == "ipv6") = true := by
    rcases ht2 with h | h <;> simp [h]
  have h1 := addOne_block_fresh (existingAddresses entries)
    (existingNames entries) c1 ⟨entries, [], 0, 0⟩ ns1 (Or.inr ha1) hn1 hne1
    hfresh1
  have h2 := addOne_block_fresh (existingAddresses entries)
    (existingNames entries) c2 ⟨entries, [c1], 0, 0⟩ ns2 (Or.inr ha2) hn2 hne2
    hfresh2
  have hloop : addLoop false (existingAddresses entries)
      (existingNames entries) [c1, c2] ⟨entries, [], 0, 0⟩ =
      some ⟨entries, [c1, c2], 0, 0⟩ := by
    rw [addLoop_cons false (existingAddresses entries)
      (existingNames entries) c1 [c2] ⟨entries, [], 0, 0⟩ _ h1]
    show addLoop false (existingAddresses entries) (existingNames entries)
      [c2] ⟨entries, [c1], 0, 0⟩ = _
    rw [addLoop_cons false (existingAddresses entries)
      (existingNames entries) c2 [] ⟨entries, [c1], 0, 0⟩ _ h2]
    rfl
  refine ⟨⟨entries ++ List.filter
        (fun x => x.entry_type == "ipv4" || x.entry_type == "ipv6") [c1, c2],
      (List.filter (fun x => x.entry_type == "ipv4") [c1, c2]).length,
      (List.filter (fun x => x.entry_type == "ipv6") [c1, c2]).length,
      0, 0, 0⟩, ?_, ?_, rfl⟩
  · simp only [add]
    rw [hloop]
  · show entries ++ List.filter
        (fun x => x.entry_type == "ipv4" || x.entry_type == "ipv6")
        [c1, c2] = _
    simp [htyp1, htyp2]

theorem C5_witness :
    ∃ r, add [] [⟨"ipv4", some "127.0.0.1", none, some ["a"]⟩,
        ⟨"ipv4", some "127.0.0.1", none, some ["b"]⟩] false = some r ∧
      r.entries = [] ++ [⟨"ipv4", some "127.0.0.1", none, some ["a"]⟩,
        ⟨"ipv4", some "127.0.0.1", none, some ["b"]⟩] ∧
      r.duplicate_count = 0 :=
  C5_two_block_candidates [] ⟨"ipv4", some "127.0.0.1", none, some ["a"]⟩
    ⟨"ipv4", some "127.0.0.1", none, some ["b"]⟩ ["a"] ["b"] rfl rfl rfl rfl
    (by decide) (by decide) (Or.inl rfl) (Or.inl rfl) (by decide) (by decide)

/-- C6: a valid address with valid non-empty names, serialized in the
write-back line format and re-parsed, round-trips to the same kind, address
and names. -/
theorem C6_round_trip (A : String) (N : List String)
    (hA : is_ipv4 A = true ∨ is_ipv6 A = true)
    (hNne : N ≠ []) (hNv : N.all valid_hostname = true) :
    str_to_hostentry (hostsLine
        ⟨if is_ipv4 A then "ipv4" else "ipv6", some A, none, some N⟩) =
      ParseResult.entry
        ⟨if is_ipv4 A then "ipv4" else "ipv6", some A, none, some N⟩ := by
  have hAc : A.data ≠ [] ∧ ∀ c ∈ A.data, pyIsSpace c = false := by
    rcases hA with h | h
    · exact ⟨ipv4_ne_nil h, ipv4_no_space h⟩
    · exact ⟨ipv6_ne_nil h, ipv6_no_space h⟩
  have hNc : N ≠ [] ∧ ∀ nm ∈ N, nm.data ≠ [] ∧
      ∀ c ∈ nm.data, pyIsSpace c = false := by
    refine ⟨hNne, fun nm hnm => ?_⟩
    have hv := List.all_eq_true.mp hNv nm hnm
    exact ⟨hostname_ne_nil hv, hostname_no_space hv⟩
  have hsplit : pysplit (A ++ "\t" ++ joinSpace N ++ "\n") = A :: N :=
    pysplit_line A N hAc hNc
  have hvn : valid_hostnames N = true := by
    show (!N.isEmpty && N.all valid_hostname) = true
    rw [hNv]
    cases N
    · exact absurd rfl hNne
    · rfl
  show (match pysplit (A ++ "\t" ++ joinSpace N ++ "\n") with
    | [] => ParseResult.indexError
    | p0 :: rest =>
      if is_ipv4 p0 then
        if valid_hostnames rest then
          ParseResult.entry ⟨"ipv4", some p0, none, some rest⟩
        else ParseResult.noEntry
      else if is_ipv6 p0 then
        if valid_hostnames rest then
          ParseResult.entry ⟨"ipv6", some p0, none, some rest⟩
        else ParseResult.noEntry
      else ParseResult.falseResult) =
    ParseResult.entry ⟨if is_ipv4 A then "ipv4" else "ipv6", some A, none,
      some N⟩
  rw [hsplit]
  show (if is_ipv4 A = true then
      if valid_hostnames N = true then
        ParseResult.entry ⟨"ipv4", some A, none, some N⟩
      else ParseResult.noEntry
    else if is_ipv6 A = true then
      if valid_hostnames N = true then
        ParseResult.entry ⟨"ipv6", some A, none, some N⟩
      else ParseResult.noEntry
    else ParseResult.falseResult) = _
  rcases hA with h | h
  · rw [if_pos h, if_pos hvn, if_pos h]
  · have h4 : ¬(is_ipv4 A = true) := by
      rw [ipv6_not_ipv4 h]
      simp
    rw [if_neg h4, if_pos h, if_pos hvn, if_neg h4]

theorem C6_witness :
    str_to_hostentry (hostsLine
        ⟨if is_ipv4 "1.2.3.4" then "ipv4" else "ipv6",
          some "1.2.3.4", none, some ["foo"]⟩) =
      ParseResult.entry ⟨if is_ipv4 "1.2.3.4" then "ipv4" else "ipv6",
        some "1.2.3.4", none, some ["foo"]⟩ :=
  C6_round_trip "1.2.3.4" ["foo"] (Or.inl (by decide)) (by decide)
    (by decide)

/-- C7 counterexample: the claim quantifies over every collection and every
argument combination, but a truthy names argument scanned past a comment or
blank entry (`names = None`) raises `TypeError` at hosts.py line 203:
`exists` returns no boolean at all there, in particular not the false the
claim requires of a non-matching collection. -/
theorem C7_counterexample :
    existsEntry [⟨"comment", none, some "# c", none⟩] none (some ["foo"]) =
      none ∧
    ∀ b : Bool, existsEntry [⟨"comment", none, some "# c", none⟩] none
      (some ["foo"]) ≠ some b :=
  ⟨by decide, by decide⟩

/-- The per-entry match of `Hosts.exists` as a pure predicate: on a
collection where no scanned test raises, the scan returns true exactly when
some entry passes it. -/
def existsEntryB (entries : List HostsEntry) (address : Option String)
    (names : Option (List String)) : Bool :=
  entries.any (fun x =>
    (truthyS address && address == x.address) ||
    (truthyL names && (names.getD []).any (fun n =>
      (x.names.getD []).contains n)))

theorem existsEntry_eq_some (address : Option String)
    (names : Option (List String)) :
    ∀ (entries : List HostsEntry),
      (truthyL names = false ∨ ∀ x ∈ entries, x.names ≠ none) →
      existsEntry entries address names =
        some (existsEntryB entries address names)
  | [], _ => rfl
  | x :: rest, h => by
    have hrest : truthyL names = false ∨ ∀ y ∈ rest, y.names ≠ none := by
      rcases h with h | h
      · exact Or.inl h
      · exact Or.inr (fun y hy => h y (List.mem_cons_of_mem x hy))
    have ih := existsEntry_eq_some address names rest hrest
    show (if truthyS address && address == x.address then some true
      else if truthyL names then
        match x.names with
        | none => none
        | some ens =>
          if (names.getD []).any (fun n => ens.contains n) then some true
          else existsEntry rest address names
      else existsEntry rest address names) = _
    by_cases h1 : (truthyS address && address == x.address) = true
    · rw [if_pos h1]
      simp [existsEntryB, h1]
    · have h1f : (truthyS address && address == x.address) = false := by
        simpa using h1
      rw [if_neg h1]
      by_cases h2 : truthyL names = true
      · have hx : x.names ≠ none := by
          rcases h with h | h
          · rw [h] at h2
            cases h2
          · exact h x (List.mem_cons_self x rest)
        rcases hxe : x.names with _ | ens
        · exact absurd hxe hx
        · rw [if_pos h2]
          show (if (names.getD []).any (fun n => ens.contains n) then
              some true
            else existsEntry rest address names) = _
          by_cases h3 : (names.getD []).any (fun n => ens.contains n) = true
          · rw [if_pos h3]
            obtain ⟨n, hn, hcn⟩ := List.any_eq_true.mp h3
            have hnm : n ∈ ens := by
              by_contra hno
              rw [contains_eq_false_of_not_mem hno] at hcn
              cases hcn
            simp [existsEntryB, h2, hxe, h1f]
            exact Or.inl ⟨n, hn, hnm⟩
          · rw [if_neg h3, ih]
            have hno : ∀ n ∈ names.getD [], n ∉ ens := by
              intro n hn hmem
              exact h3 (List.any_eq_true.mpr
                ⟨n, hn, contains_eq_true_of_mem hmem⟩)
            simp [existsEntryB, h2, hxe, h1f]
            intro n hn hmem
            exact absurd hmem (hno n hn)
      · have h2f : truthyL names = false := by
          simpa using h2
        rw [if_neg h2, ih]
        simp [existsEntryB, h1f, h2f]

theorem existsEntryB_true_iff (entries : List HostsEntry)
    (address : Option String) (names : Option (List String)) :
    existsEntryB entries address names = true ↔
      (truthyS address = true ∧ ∃ x ∈ entries, x.address = address) ∨
      (truthyL names = true ∧ ∃ n ∈ names.getD [], ∃ x ∈ entries,
        ∃ ens, x.names = some ens ∧ n ∈ ens) := by
  rw [existsEntryB, List.any_eq_true]
  constructor
  · rintro ⟨x, hx, hpx⟩
    simp only [Bool.or_eq_true, Bool.and_eq_true, beq_iff_eq,
      List.any_eq_true] at hpx
    rcases hpx with ⟨hta, heq⟩ | ⟨htn, n, hn, hcont⟩
    · exact Or.inl ⟨hta, x, hx, heq.symm⟩
    · have hmem : n ∈ x.names.getD [] := by
        by_contra hno
        rw [contains_eq_false_of_not_mem hno] at hcont
        cases hcont
      obtain ⟨ens, hens, hne⟩ := mem_getD_names.mp hmem
      exact Or.inr ⟨htn, n, hn, x, hx, ens, hens, hne⟩
  · rintro (⟨hta, x, hx, heq⟩ | ⟨htn, n, hn, x, hx, ens, hens, hne⟩)
    · exact ⟨x, hx, by simp [hta, heq]⟩
    · refine ⟨x, hx, ?_⟩
      simp only [Bool.or_eq_true, Bool.and_eq_true]
      refine Or.inr ⟨htn, ?_⟩
      rw [List.any_eq_true]
      refine ⟨n, hn, ?_⟩
      rw [hens]
      exact contains_eq_true_of_mem hne

/-- C7 (amended): restricted to calls that cannot hit the raising membership
test of hosts.py line 203 (either the names argument is not truthy, or every
entry carries a names list), `exists` returns a boolean, and returns true
iff some entry's address equals the truthy address argument or some given
name is a member of some entry's names; the empty collection and the
no-argument call return false. -/
theorem C7_exists_characterisation (entries : List HostsEntry)
    (address : Option String) (names : Option (List String))
    (hnm : truthyL names = false ∨ ∀ x ∈ entries, x.names ≠ none) :
    (∃ b, existsEntry entries address names = some b) ∧
    (existsEntry entries address names = some true ↔
      (truthyS address = true ∧ ∃ x ∈ entries, x.address = address) ∨
      (truthyL names = true ∧ ∃ n ∈ names.getD [], ∃ x ∈ entries,
        ∃ ens, x.names = some ens ∧ n ∈ ens)) ∧
    existsEntry [] address names = some false ∧
    existsEntry entries none none = some false := by
  have hmain := existsEntry_eq_some address names entries hnm
  refine ⟨⟨_, hmain⟩, ?_, rfl, ?_⟩
  · rw [hmain, Option.some_inj]
    exact existsEntryB_true_iff entries address names
  · rw [existsEntry_eq_some none none entries (Or.inl rfl)]
    simp [existsEntryB, truthyS, truthyL]

theorem C7_witness :
    (∃ b, existsEntry [⟨"ipv4", some "1.2.3.4", none, some ["foo"]⟩] none
      (some ["foo"]) = some b) ∧
    (existsEntry [⟨"ipv4", some "1.2.3.4", none, some ["foo"]⟩] none
        (some ["foo"]) = some true ↔
      (truthyS none = true ∧ ∃ x ∈ [(⟨"ipv4", some "1.2.3.4", none,
          some ["foo"]⟩ : HostsEntry)], x.address = none) ∨
      (truthyL (some ["foo"]) = true ∧ ∃ n ∈ (some ["foo"]).getD [],
        ∃ x ∈ [(⟨"ipv4", some "1.2.3.4", none, some ["foo"]⟩ : HostsEntry)],
        ∃ ens, x.names = some ens ∧ n ∈ ens)) ∧
    existsEntry [] none (some ["foo"]) = some false ∧
    existsEntry [⟨"ipv4", some "1.2.3.4", none, some ["foo"]⟩] none none =
      some false :=
  C7_exists_characterisation [⟨"ipv4", some "1.2.3.4", none, some ["foo"]⟩]
    none (some ["foo"]) (Or.inr (by decide))

/-- C8 counterexample: the claim quantifies over any starting collection,
but a remove-by-name call scans `name in x.names` over every entry
(hosts.py line 221) and raises `TypeError` at the first comment or blank
entry (`names = None`): no resulting collection is returned at all. -/
theorem C8_counterexample :
    remove_all_matching [⟨"comment", none, some "# c", none⟩] none
      (some "foo") = none ∧
    ∀ l : List HostsEntry,
      remove_all_matching [⟨"comment", none, some "# c", none⟩] none
        (some "foo") ≠ some l := by
  have h : remove_all_matching [⟨"comment", none, some "# c", none⟩] none
      (some "foo") = none := by decide
  refine ⟨h, fun l hl => ?_⟩
  rw [h] at hl
  cases hl

/-- C8 (amended): on a collection whose entries all carry name lists (the
membership test of hosts.py line 221 raises `TypeError` on a comment or
blank entry), `remove_all_matching` with only a (truthy) name removes
exactly the entries whose names contain that name, keeping every other
entry in its original relative order. -/
theorem C8_remove_by_name (entries : List HostsEntry) (name : String)
    (hne : name ≠ "") (hnm : ∀ x ∈ entries, x.names ≠ none) :
    remove_all_matching entries none (some name) =
      some (entries.filter (fun x => !((x.names.getD []).contains name))) := by
  rw [remove_all_matching_eq_filter entries none (some name) (Or.inl hnm)]
  congr 1
  apply List.filter_congr
  intro x hx
  simp [removeMatchesB, truthyS, hne]

theorem C8_witness :
    remove_all_matching
        [⟨"ipv4", some "1.2.3.4", none, some ["foo"]⟩,
         ⟨"ipv4", some "2.2.2.2", none, some ["bar"]⟩] none (some "foo") =
      some (List.filter (fun x => !((x.names.getD []).contains "foo"))
        [⟨"ipv4", some "1.2.3.4", none, some ["foo"]⟩,
         ⟨"ipv4", some "2.2.2.2", none, some ["bar"]⟩]) :=
  C8_remove_by_name
    [⟨"ipv4", some "1.2.3.4", none, some ["foo"]⟩,
     ⟨"ipv4", some "2.2.2.2", none, some ["bar"]⟩] "foo" (by decide)
    (by decide)

/-- C9: `import_file` on an unreadable source returns the failure
dictionary, with the collection's entries unchanged, no add result and no
write performed. -/
theorem C9_import_file_unreadable (fs : FS) (entries : List HostsEntry)
    (path : Option String) (h : is_readable fs path = false) :
    import_file fs entries path =
      some { result := "failed",
             message := some ("Cannot read: file " ++ path.getD "None"
               ++ "."),
             skipped := 0, invalid_count := 0, add_result := none,
             write_result := none, entries := entries } := by
  simp only [import_file]
  rw [if_neg (by rw [h]; simp)]

theorem C9_witness :
    import_file ⟨[]⟩ [⟨"ipv4", some "1.2.3.4", none, some ["foo"]⟩]
        (some "/tmp/hosts.in") =
      some { result := "failed",
             message := some ("Cannot read: file " ++
               (some "/tmp/hosts.in").getD "None" ++ "."),
             skipped := 0, invalid_count := 0, add_result := none,
             write_result := none,
             entries := [⟨"ipv4", some "1.2.3.4", none, some ["foo"]⟩] } :=
  C9_import_file_unreadable ⟨[]⟩
    [⟨"ipv4", some "1.2.3.4", none, some ["foo"]⟩] (some "/tmp/hosts.in")
    (by decide)

/-- C10: `str_to_hostentry` on a string consisting entirely of whitespace
(the empty string included) indexes the first token of an empty split at
hosts.py line 91 and raises `IndexError`, modelled as the `indexError`
outcome. -/
theorem C10_whitespace_line_index_error (s : String)
    (h : ∀ c ∈ s.data, pyIsSpace c = true) :
    str_to_hostentry s = ParseResult.indexError := by
  have hsplit : pysplit s = [] := by
    rw [pysplit, splitWS, splitWSAux_all_space s.data [] h]
    simp
  show (match pysplit s with
    | [] => ParseResult.indexError
    | p0 :: rest =>
      if is_ipv4 p0 then
        if valid_hostnames rest then
          ParseResult.entry ⟨"ipv4", some p0, none, some rest⟩
        else ParseResult.noEntry
      else if is_ipv6 p0 then
        if valid_hostnames rest then
          ParseResult.entry ⟨"ipv6", some p0, none, some rest⟩
        else ParseResult.noEntry
      else ParseResult.falseResult) = ParseResult.indexError
  rw [hsplit]

theorem C10_witness :
    str_to_hostentry " " = ParseResult.indexError :=
  C10_whitespace_line_index_error " " (by decide)

end PyHosts
